import Mathlib

/-!
Verification of the `redox` editor-core text buffer
(`crates/editor_core/src/buffer/`).

The buffer is a ropey `Rope`, modelled here as a `List Char`: the rope is an
indexed char sequence whose line structure is determined by the newline
characters it contains (the code's own documented assumption: "Ropey counts
lines by `'\n'` boundaries and always reports at least 1 line").

Rope primitives (`len_chars`, `len_lines`, `line_to_char`, `char_to_line`,
`line`, `char`, `insert`, `remove`, `slice`) are given their documented
semantics on the list.  Partial rope primitives (those that panic out of
bounds) additionally get `Option`-valued versions used to settle the
totality claim: every buffer operation, run with checked rope accesses,
is proved to return `some`.
-/

set_option maxHeartbeats 1000000

namespace Redox

/-- Rust struct `Pos` (buffer/pos.rs): zero-based logical line and column,
column counted in chars. -/
structure Pos where
  line : Nat
  col : Nat
deriving DecidableEq

/-- Rust `Pos::zero`. -/
def Pos.zero : Pos := ⟨0, 0⟩

/-- Lexicographic comparison of positions, matching the derived `PartialOrd`
and `Ord` on the Rust `Pos` (fields compared in declaration order: line,
then col). -/
def posLe (a b : Pos) : Bool :=
  decide (a.line < b.line ∨ (a.line = b.line ∧ a.col ≤ b.col))

/-- Rust struct `Selection` (buffer/pos.rs): anchor plus active cursor. -/
structure Selection where
  anchor : Pos
  cursor : Pos
deriving DecidableEq

/-- Rust `Selection::empty`. -/
def Selection.empty (p : Pos) : Selection := ⟨p, p⟩

/-- Rust `Selection::is_empty`: direct equality of anchor and cursor. -/
def Selection.isEmpty (s : Selection) : Bool := decide (s.anchor = s.cursor)

/-- Rust `Selection::ordered`: the pair ordered by the lexicographic
(line, col) order. -/
def Selection.ordered (s : Selection) : Pos × Pos :=
  if posLe s.anchor s.cursor then (s.anchor, s.cursor) else (s.cursor, s.anchor)

/-- Rust struct `Edit` (buffer/edit.rs): a half-open char range
`[rangeStart, rangeEnd)` to remove, and text to place at the start. -/
structure Edit where
  rangeStart : Nat
  rangeEnd : Nat
  insert : List Char
deriving DecidableEq

/-! ## Rope model -/

/-- Number of `'\n'` chars in a text.  Ropey's line structure is determined
by the newlines the rope contains. -/
def countNl (l : List Char) : Nat := l.count '\n'

/-- Ropey `Rope::len_chars`: total char count. -/
def len_chars (b : List Char) : Nat := b.length

/-- Ropey `Rope::len_lines`: one more than the number of newline chars;
at least 1 even for empty text. -/
def len_lines (b : List Char) : Nat := countNl b + 1

/-- Ropey `Rope::line_to_char` semantics: char index of the start of line
`n`, i.e. the length of the shortest prefix containing `n` newlines (and
`b.length` when fewer than `n` newlines exist, which is ropey's value for
`line_to_char(len_lines)`). -/
def lineStart : List Char → Nat → Nat
  | _, 0 => 0
  | [], _ + 1 => 0
  | ch :: rest, n + 1 => 1 + lineStart rest (if ch = '\n' then n else n + 1)

/-- Ropey `Rope::char_to_line` semantics: the line containing char index
`c` is the number of newlines strictly before it. -/
def charToLine (b : List Char) (c : Nat) : Nat := countNl (b.take c)

/-- Ropey `Rope::line` semantics: the slice of line `n`, including its
trailing newline when present (valid for `n < len_lines`). -/
def lineSliceFull (b : List Char) (n : Nat) : List Char :=
  (b.drop (lineStart b n)).take (lineStart b (n + 1) - lineStart b n)

/-- Ropey `Rope::insert` content semantics: splice `t` in at char index
`at_` (valid for `at_ ≤ len_chars`). -/
def ropeInsert (b : List Char) (at_ : Nat) (t : List Char) : List Char :=
  b.take at_ ++ t ++ b.drop at_

/-- Ropey `Rope::remove` content semantics: remove the chars of `[s, e)`
(valid for `s ≤ e ≤ len_chars`). -/
def ropeRemove (b : List Char) (s e : Nat) : List Char :=
  b.take s ++ b.drop e

/-! ## TextBuffer: constructors (text_buffer/core.rs) -/

/-- Rust `TextBuffer::new`: an empty buffer. -/
def newBuffer : List Char := []

/-- Rust `TextBuffer::from_str`: buffer holding the given UTF-8 text. -/
def fromStr (s : String) : List Char := s.toList

/-! ## TextBuffer: line helpers (text_buffer/lines.rs) -/

/-- Rust `TextBuffer::clamp_line`: clamp a line index to
`[0, len_lines - 1]`. -/
def clamp_line (b : List Char) (line : Nat) : Nat :=
  min line (len_lines b - 1)

/-- Rust `TextBuffer::line_to_char`: clamping wrapper around the rope's
`line_to_char`. -/
def line_to_char (b : List Char) (line : Nat) : Nat :=
  lineStart b (clamp_line b line)

/-- Rust `TextBuffer::char_to_line`: clamping wrapper around the rope's
`char_to_line`. -/
def char_to_line (b : List Char) (c : Nat) : Nat :=
  charToLine b (min c (len_chars b))

/-- Rust `TextBuffer::line_len_chars`: length of the (clamped) line in
chars, excluding one trailing `'\n'` when the line's rope slice ends in
one. -/
def line_len_chars (b : List Char) (line : Nat) : Nat :=
  let l := clamp_line b line
  let slice := lineSliceFull b l
  let len := slice.length
  if 0 < len ∧ slice.getD (len - 1) ' ' = '\n' then len - 1 else len

/-- Rust `TextBuffer::line_string`: the (clamped) line's content with a
trailing `'\n'` stripped (`strip_suffix` on the rope line slice). -/
def line_string (b : List Char) (line : Nat) : List Char :=
  let l := clamp_line b line
  let slice := lineSliceFull b l
  if slice.getLast? = some '\n' then slice.dropLast else slice

/-- Rust `TextBuffer::line_char_range`: char range `[start, end)` of the
(clamped) line's content, dropping exactly one trailing `'\n'` when the
char before the next line start is a newline. -/
def line_char_range (b : List Char) (line : Nat) : Nat × Nat :=
  let l := clamp_line b line
  let s := lineStart b l
  let endIncl := s + (lineSliceFull b l).length
  let e := if endIncl > s ∧ b.getD (endIncl - 1) ' ' = '\n' then endIncl - 1
           else endIncl
  (s, e)

/-! ## TextBuffer: position conversion (text_buffer/positions.rs) -/

/-- Rust `TextBuffer::clamp_pos`: clamp line to `[0, len_lines - 1]`, then
column to `[0, line_len_chars line]`. -/
def clamp_pos (b : List Char) (p : Pos) : Pos :=
  let line := clamp_line b p.line
  let maxCol := line_len_chars b line
  ⟨line, min p.col maxCol⟩

/-- Rust `TextBuffer::pos_to_char`: clamp, then line start plus column. -/
def pos_to_char (b : List Char) (p : Pos) : Nat :=
  let q := clamp_pos b p
  lineStart b q.line + q.col

/-- Rust `TextBuffer::char_to_pos`: clamp the char index to
`[0, len_chars]`, locate the containing line, take the column as offset
from the line start, and clamp the column to the line's length so an index
on the newline maps to end-of-line. -/
def char_to_pos (b : List Char) (c : Nat) : Pos :=
  let c := min c (len_chars b)
  let line := charToLine b c
  let ls := lineStart b line
  let col := c - ls
  let maxCol := line_len_chars b line
  ⟨line, min col maxCol⟩

/-- Rust `TextBuffer::move_left`. -/
def move_left (b : List Char) (p : Pos) : Pos :=
  let c := pos_to_char b p
  if c = 0 then Pos.zero else char_to_pos b (c - 1)

/-- Rust `TextBuffer::move_right`. -/
def move_right (b : List Char) (p : Pos) : Pos :=
  let c := pos_to_char b p
  let maxc := len_chars b
  if c ≥ maxc then char_to_pos b maxc else char_to_pos b (c + 1)

/-- Rust `TextBuffer::move_up`. -/
def move_up (b : List Char) (p : Pos) : Pos :=
  let q := clamp_pos b p
  if q.line = 0 then q
  else ⟨q.line - 1, min q.col (line_len_chars b (q.line - 1))⟩

/-- Rust `TextBuffer::move_down`. -/
def move_down (b : List Char) (p : Pos) : Pos :=
  let q := clamp_pos b p
  let last := len_lines b - 1
  if q.line ≥ last then q
  else ⟨q.line + 1, min q.col (line_len_chars b (q.line + 1))⟩

/-- Rust `TextBuffer::char_at`: the char at a (clamped) position when the
column is within the line content, excluding the newline. -/
def char_at (b : List Char) (p : Pos) : Option Char :=
  let q := clamp_pos b p
  let lineLen := line_len_chars b q.line
  if q.col ≥ lineLen then none
  else some (b.getD (pos_to_char b q) ' ')

/-- Rust `TextBuffer::char_before`: the char just before a position, when
one exists. -/
def char_before (b : List Char) (p : Pos) : Option Char :=
  let c := pos_to_char b p
  if c = 0 then none else some (b.getD (c - 1) ' ')

/-! ## util.rs helpers -/

/-- Rust `util::is_word_char`: ASCII alphanumeric or underscore. -/
def is_word_char (ch : Char) : Bool :=
  (ch.isUpper || ch.isLower || ch.isDigit) || ch == '_'

/-- Rust `util::min_pos`: the smaller of two positions after clamping both
into the buffer. -/
def min_pos (b : List Char) (a c : Pos) : Pos :=
  let a := clamp_pos b a
  let c := clamp_pos b c
  if posLe a c then a else c

/-- Rust `util::max_pos`: the larger of two positions after clamping both
into the buffer. -/
def max_pos (b : List Char) (a c : Pos) : Pos :=
  let a := clamp_pos b a
  let c := clamp_pos b c
  if posLe c a then a else c

/-! ## TextBuffer: editing (text_buffer/editing.rs)

Each mutating Rust method takes `&mut self`; here the operation returns the
new buffer content alongside the Rust return value. -/

/-- Rust `TextBuffer::insert`: splice `t` at the (converted) position and
return the position at the end of the inserted text.  `Rope::from_str(text)
.len_chars()` is the char count of `t`, i.e. `t.length`. -/
def insert (b : List Char) (p : Pos) (t : List Char) : List Char × Pos :=
  let at_ := pos_to_char b p
  let b1 := ropeInsert b at_ t
  (b1, char_to_pos b1 (at_ + t.length))

/-- Rust `TextBuffer::delete_range`: clamp and order the endpoints, remove
`[min, max)` when non-empty, return the position at the removal start. -/
def delete_range (b : List Char) (a c : Pos) : List Char × Pos :=
  let s := pos_to_char b (min_pos b a c)
  let e := pos_to_char b (max_pos b a c)
  let b1 := if s < e then ropeRemove b s e else b
  (b1, char_to_pos b1 s)

/-- Rust `TextBuffer::delete_selection`: no-op returning
`(clamped cursor, false)` on an empty selection; otherwise delegates to
`delete_range` on the ordered pair and returns `true`. -/
def delete_selection (b : List Char) (sel : Selection) :
    List Char × Pos × Bool :=
  if sel.isEmpty then (b, clamp_pos b sel.cursor, false)
  else
    let (s, e) := sel.ordered
    let (b1, p) := delete_range b s e
    (b1, p, true)

/-- Rust `TextBuffer::backspace`: delete the selection when non-empty;
otherwise remove the single char before the (clamped) cursor, when one
exists. -/
def backspace (b : List Char) (sel : Selection) : List Char × Selection :=
  if !sel.isEmpty then
    let (b1, p, _) := delete_selection b sel
    (b1, Selection.empty p)
  else
    let cursor := clamp_pos b sel.cursor
    let at_ := pos_to_char b cursor
    if at_ = 0 then (b, Selection.empty cursor)
    else
      let s := at_ - 1
      let b1 := ropeRemove b s at_
      (b1, Selection.empty (char_to_pos b1 s))

/-- Rust `TextBuffer::delete` (forward delete): delete the selection when
non-empty; otherwise remove the char at the (clamped) cursor, when one
exists. -/
def delete (b : List Char) (sel : Selection) : List Char × Selection :=
  if !sel.isEmpty then
    let (b1, p, _) := delete_selection b sel
    (b1, Selection.empty p)
  else
    let cursor := clamp_pos b sel.cursor
    let at_ := pos_to_char b cursor
    let maxc := len_chars b
    if at_ ≥ maxc then (b, Selection.empty cursor)
    else
      let b1 := ropeRemove b at_ (at_ + 1)
      (b1, Selection.empty (char_to_pos b1 at_))

/-- Rust `TextBuffer::insert_newline`: delete a non-empty selection first,
then insert a newline; always returns an empty selection at the result. -/
def insert_newline (b : List Char) (sel : Selection) :
    List Char × Selection :=
  if !sel.isEmpty then
    let (s, e) := sel.ordered
    let (b1, cursor) := delete_range b s e
    let (b2, c2) := insert b1 cursor ['\n']
    (b2, Selection.empty c2)
  else
    let cursor := clamp_pos b sel.cursor
    let (b1, c1) := insert b cursor ['\n']
    (b1, Selection.empty c1)

/-- Rust `TextBuffer::apply_edit`: clamp both range endpoints to
`[0, len_chars]`, swap when mis-ordered, remove the range when non-empty,
insert the text at the start when non-empty; the returned position is the
end of the inserted text, or the removal start. -/
def apply_edit (b : List Char) (ed : Edit) : List Char × Pos :=
  let maxc := len_chars b
  let s0 := min ed.rangeStart maxc
  let e0 := min ed.rangeEnd maxc
  let se := if s0 ≤ e0 then (s0, e0) else (e0, s0)
  let s := se.1
  let e := se.2
  let b1 := if s < e then ropeRemove b s e else b
  if ed.insert ≠ [] then
    let b2 := ropeInsert b1 s ed.insert
    (b2, char_to_pos b2 (s + ed.insert.length))
  else
    (b1, char_to_pos b1 s)

/-- Rust `TextBuffer::replace_selection`: delete-then-insert on a non-empty
selection, plain insert at the cursor otherwise; always returns an empty
selection at the result. -/
def replace_selection (b : List Char) (sel : Selection) (t : List Char) :
    List Char × Selection :=
  if !sel.isEmpty then
    let (s, e) := sel.ordered
    let (b1, cursor) := delete_range b s e
    let (b2, c2) := insert b1 cursor t
    (b2, Selection.empty c2)
  else
    let (b1, c1) := insert b sel.cursor t
    (b1, Selection.empty c1)

/-! ## TextBuffer: word motion (text_buffer/words.rs) -/

/-- First loop of Rust `TextBuffer::word_start_before`: decrement the index
while the char before it is a non-word char. -/
def skipNonWordLeft (b : List Char) : Nat → Nat
  | 0 => 0
  | c + 1 => if is_word_char (b.getD c ' ') then c + 1 else skipNonWordLeft b c

/-- Second loop of Rust `TextBuffer::word_start_before`: decrement the index
while the char before it is a word char. -/
def skipWordLeft (b : List Char) : Nat → Nat
  | 0 => 0
  | c + 1 => if is_word_char (b.getD c ' ') then skipWordLeft b c else c + 1

/-- Rust `TextBuffer::word_start_before`: skip non-word chars left, then
word chars left, from the char offset of the position. -/
def word_start_before (b : List Char) (p : Pos) : Pos :=
  let c := pos_to_char b p
  if c = 0 then Pos.zero
  else char_to_pos b (skipWordLeft b (skipNonWordLeft b c))

/-- Length of the maximal non-word-char prefix: first loop of Rust
`TextBuffer::word_end_after`, which advances `c` while `c < maxc` and
`rope.char(c)` is a non-word char. -/
def leadingNonWord : List Char → Nat
  | [] => 0
  | ch :: rest => if is_word_char ch then 0 else 1 + leadingNonWord rest

/-- Length of the maximal word-char prefix: second loop of Rust
`TextBuffer::word_end_after`. -/
def leadingWord : List Char → Nat
  | [] => 0
  | ch :: rest => if is_word_char ch then 1 + leadingWord rest else 0

/-- Rust `TextBuffer::word_end_after`: skip non-word chars right, then word
chars right, from the char offset of the position; both loops stop at
`len_chars`. -/
def word_end_after (b : List Char) (p : Pos) : Pos :=
  let c := pos_to_char b p
  let c1 := c + leadingNonWord (b.drop c)
  let c2 := c1 + leadingWord (b.drop c1)
  char_to_pos b c2

/-! ## TextBuffer: slicing (text_buffer/slicing.rs) -/

/-- Rust `TextBuffer::slice_chars`: clamp both indices to the buffer
bounds, swap when mis-ordered, and copy out `[start, end)`. -/
def slice_chars (b : List Char) (s0 e0 : Nat) : List Char :=
  let maxc := len_chars b
  let s1 := min s0 maxc
  let e1 := min e0 maxc
  let se := if s1 > e1 then (e1, s1) else (s1, e1)
  (b.drop se.1).take (se.2 - se.1)

/-- Rust `TextBuffer::slice_selection`: slice between the ordered selection
endpoints. -/
def slice_selection (b : List Char) (sel : Selection) : List Char :=
  let (a, c) := sel.ordered
  slice_chars b (pos_to_char b a) (pos_to_char b c)

/-- Rust `TextBuffer::slice_pos_range`: slice between two positions,
order-independent. -/
def slice_pos_range (b : List Char) (a c : Pos) : List Char :=
  slice_chars b (pos_to_char b a) (pos_to_char b c)

/-! ## Checked operations

Ropey's indexing primitives panic when given out-of-bounds arguments.  The
`?`-suffixed definitions below re-run every buffer operation with each rope
primitive replaced by a bounds-checked `Option` version (`none` exactly when
the corresponding rope call would panic).  The totality claim is that every
operation returns `some` of its unchecked value, for every input. -/

/-- Checked `Rope::char`: panics for `i ≥ len_chars`. -/
def ropeChar? (b : List Char) (i : Nat) : Option Char := b[i]?

/-- Checked `Rope::line`: panics for `n ≥ len_lines`. -/
def line? (b : List Char) (n : Nat) : Option (List Char) :=
  if n < len_lines b then some (lineSliceFull b n) else none

/-- Checked `Rope::line_to_char`: panics for `n > len_lines`. -/
def lineToChar? (b : List Char) (n : Nat) : Option Nat :=
  if n ≤ len_lines b then some (lineStart b n) else none

/-- Checked `Rope::char_to_line`: panics for `c > len_chars`. -/
def charToLine? (b : List Char) (c : Nat) : Option Nat :=
  if c ≤ len_chars b then some (charToLine b c) else none

/-- Checked `Rope::insert`: panics for `at_ > len_chars`. -/
def ropeInsert? (b : List Char) (at_ : Nat) (t : List Char) :
    Option (List Char) :=
  if at_ ≤ len_chars b then some (ropeInsert b at_ t) else none

/-- Checked `Rope::remove`: panics unless `s ≤ e ≤ len_chars`. -/
def ropeRemove? (b : List Char) (s e : Nat) : Option (List Char) :=
  if s ≤ e ∧ e ≤ len_chars b then some (ropeRemove b s e) else none

/-- Checked `Rope::slice`: panics unless `s ≤ e ≤ len_chars`. -/
def ropeSlice? (b : List Char) (s e : Nat) : Option (List Char) :=
  if s ≤ e ∧ e ≤ len_chars b then some ((b.drop s).take (e - s)) else none

/-- `TextBuffer::line_len_chars` with checked rope accesses. -/
def line_len_chars? (b : List Char) (line : Nat) : Option Nat :=
  (line? b (clamp_line b line)).bind fun slice =>
    if 0 < slice.length then
      (ropeChar? slice (slice.length - 1)).bind fun ch =>
        if ch = '\n' then some (slice.length - 1) else some slice.length
    else some slice.length

/-- `TextBuffer::line_string` with checked rope accesses. -/
def line_string? (b : List Char) (line : Nat) : Option (List Char) :=
  (line? b (clamp_line b line)).bind fun slice =>
    some (if slice.getLast? = some '\n' then slice.dropLast else slice)

/-- `TextBuffer::line_char_range` with checked rope accesses. -/
def line_char_range? (b : List Char) (line : Nat) : Option (Nat × Nat) :=
  (lineToChar? b (clamp_line b line)).bind fun s =>
    (line? b (clamp_line b line)).bind fun slice =>
      if s + slice.length > s then
        (ropeChar? b (s + slice.length - 1)).bind fun ch =>
          some (s, if ch = '\n' then s + slice.length - 1 else s + slice.length)
      else some (s, s + slice.length)

/-- `TextBuffer::line_to_char` with checked rope accesses. -/
def line_to_char? (b : List Char) (line : Nat) : Option Nat :=
  lineToChar? b (clamp_line b line)

/-- `TextBuffer::char_to_line` with checked rope accesses. -/
def char_to_line? (b : List Char) (c : Nat) : Option Nat :=
  charToLine? b (min c (len_chars b))

/-- `TextBuffer::clamp_pos` with checked rope accesses. -/
def clamp_pos? (b : List Char) (p : Pos) : Option Pos :=
  (line_len_chars? b (clamp_line b p.line)).bind fun maxCol =>
    some ⟨clamp_line b p.line, min p.col maxCol⟩

/-- `TextBuffer::pos_to_char` with checked rope accesses. -/
def pos_to_char? (b : List Char) (p : Pos) : Option Nat :=
  (clamp_pos? b p).bind fun q =>
    (lineToChar? b q.line).bind fun s =>
      some (s + q.col)

/-- `TextBuffer::char_to_pos` with checked rope accesses. -/
def char_to_pos? (b : List Char) (c : Nat) : Option Pos :=
  (charToLine? b (min c (len_chars b))).bind fun line =>
    (lineToChar? b line).bind fun ls =>
      (line_len_chars? b line).bind fun maxCol =>
        some ⟨line, min (min c (len_chars b) - ls) maxCol⟩

/-- `TextBuffer::move_left` with checked rope accesses. -/
def move_left? (b : List Char) (p : Pos) : Option Pos :=
  (pos_to_char? b p).bind fun c =>
    if c = 0 then some Pos.zero else char_to_pos? b (c - 1)

/-- `TextBuffer::move_right` with checked rope accesses. -/
def move_right? (b : List Char) (p : Pos) : Option Pos :=
  (pos_to_char? b p).bind fun c =>
    if c ≥ len_chars b then char_to_pos? b (len_chars b)
    else char_to_pos? b (c + 1)

/-- `TextBuffer::move_up` with checked rope accesses. -/
def move_up? (b : List Char) (p : Pos) : Option Pos :=
  (clamp_pos? b p).bind fun q =>
    if q.line = 0 then some q
    else
      (line_len_chars? b (q.line - 1)).bind fun ll =>
        some ⟨q.line - 1, min q.col ll⟩

/-- `TextBuffer::move_down` with checked rope accesses. -/
def move_down? (b : List Char) (p : Pos) : Option Pos :=
  (clamp_pos? b p).bind fun q =>
    if q.line ≥ len_lines b - 1 then some q
    else
      (line_len_chars? b (q.line + 1)).bind fun ll =>
        some ⟨q.line + 1, min q.col ll⟩

/-- `TextBuffer::char_at` with checked rope accesses. -/
def char_at? (b : List Char) (p : Pos) : Option (Option Char) :=
  (clamp_pos? b p).bind fun q =>
    (line_len_chars? b q.line).bind fun ll =>
      if q.col ≥ ll then some none
      else
        (pos_to_char? b q).bind fun idx =>
          (ropeChar? b idx).bind fun ch =>
            some (some ch)

/-- `TextBuffer::char_before` with checked rope accesses. -/
def char_before? (b : List Char) (p : Pos) : Option (Option Char) :=
  (pos_to_char? b p).bind fun c =>
    if c = 0 then some none
    else
      (ropeChar? b (c - 1)).bind fun ch =>
        some (some ch)

/-- `util::min_pos` with checked rope accesses. -/
def min_pos? (b : List Char) (a c : Pos) : Option Pos :=
  (clamp_pos? b a).bind fun a1 =>
    (clamp_pos? b c).bind fun c1 =>
      some (if posLe a1 c1 then a1 else c1)

/-- `util::max_pos` with checked rope accesses. -/
def max_pos? (b : List Char) (a c : Pos) : Option Pos :=
  (clamp_pos? b a).bind fun a1 =>
    (clamp_pos? b c).bind fun c1 =>
      some (if posLe c1 a1 then a1 else c1)

/-- `TextBuffer::insert` with checked rope accesses. -/
def insert? (b : List Char) (p : Pos) (t : List Char) :
    Option (List Char × Pos) :=
  (pos_to_char? b p).bind fun at_ =>
    (ropeInsert? b at_ t).bind fun b1 =>
      (char_to_pos? b1 (at_ + t.length)).bind fun p1 =>
        some (b1, p1)

/-- `TextBuffer::delete_range` with checked rope accesses. -/
def delete_range? (b : List Char) (a c : Pos) : Option (List Char × Pos) :=
  (min_pos? b a c).bind fun pm =>
    (pos_to_char? b pm).bind fun s =>
      (max_pos? b a c).bind fun pM =>
        (pos_to_char? b pM).bind fun e =>
          (if s < e then ropeRemove? b s e else some b).bind fun b1 =>
            (char_to_pos? b1 s).bind fun p =>
              some (b1, p)

/-- `TextBuffer::delete_selection` with checked rope accesses. -/
def delete_selection? (b : List Char) (sel : Selection) :
    Option (List Char × Pos × Bool) :=
  if sel.isEmpty then
    (clamp_pos? b sel.cursor).bind fun q => some (b, q, false)
  else
    (delete_range? b sel.ordered.1 sel.ordered.2).bind fun bp =>
      some (bp.1, bp.2, true)

/-- `TextBuffer::backspace` with checked rope accesses. -/
def backspace? (b : List Char) (sel : Selection) :
    Option (List Char × Selection) :=
  if !sel.isEmpty then
    (delete_selection? b sel).bind fun r =>
      some (r.1, Selection.empty r.2.1)
  else
    (clamp_pos? b sel.cursor).bind fun cursor =>
      (pos_to_char? b cursor).bind fun at_ =>
        if at_ = 0 then some (b, Selection.empty cursor)
        else
          (ropeRemove? b (at_ - 1) at_).bind fun b1 =>
            (char_to_pos? b1 (at_ - 1)).bind fun p =>
              some (b1, Selection.empty p)

/-- `TextBuffer::delete` with checked rope accesses. -/
def delete? (b : List Char) (sel : Selection) :
    Option (List Char × Selection) :=
  if !sel.isEmpty then
    (delete_selection? b sel).bind fun r =>
      some (r.1, Selection.empty r.2.1)
  else
    (clamp_pos? b sel.cursor).bind fun cursor =>
      (pos_to_char? b cursor).bind fun at_ =>
        if at_ ≥ len_chars b then some (b, Selection.empty cursor)
        else
          (ropeRemove? b at_ (at_ + 1)).bind fun b1 =>
            (char_to_pos? b1 at_).bind fun p =>
              some (b1, Selection.empty p)

/-- `TextBuffer::insert_newline` with checked rope accesses. -/
def insert_newline? (b : List Char) (sel : Selection) :
    Option (List Char × Selection) :=
  if !sel.isEmpty then
    (delete_range? b sel.ordered.1 sel.ordered.2).bind fun bp =>
      (insert? bp.1 bp.2 ['\n']).bind fun bc =>
        some (bc.1, Selection.empty bc.2)
  else
    (clamp_pos? b sel.cursor).bind fun cursor =>
      (insert? b cursor ['\n']).bind fun bc =>
        some (bc.1, Selection.empty bc.2)

/-- `TextBuffer::apply_edit` with checked rope accesses. -/
def apply_edit? (b : List Char) (ed : Edit) : Option (List Char × Pos) :=
  let maxc := len_chars b
  let s0 := min ed.rangeStart maxc
  let e0 := min ed.rangeEnd maxc
  let se := if s0 ≤ e0 then (s0, e0) else (e0, s0)
  ((if se.1 < se.2 then ropeRemove? b se.1 se.2 else some b).bind fun b1 =>
    if ed.insert ≠ [] then
      (ropeInsert? b1 se.1 ed.insert).bind fun b2 =>
        (char_to_pos? b2 (se.1 + ed.insert.length)).bind fun p =>
          some (b2, p)
    else
      (char_to_pos? b1 se.1).bind fun p =>
        some (b1, p))

/-- `TextBuffer::replace_selection` with checked rope accesses. -/
def replace_selection? (b : List Char) (sel : Selection) (t : List Char) :
    Option (List Char × Selection) :=
  if !sel.isEmpty then
    (delete_range? b sel.ordered.1 sel.ordered.2).bind fun bp =>
      (insert? bp.1 bp.2 t).bind fun bc =>
        some (bc.1, Selection.empty bc.2)
  else
    (insert? b sel.cursor t).bind fun bc =>
      some (bc.1, Selection.empty bc.2)

/-- First loop of `word_start_before` with checked rope accesses: the loop
reads `rope.char(c - 1)` under the guard `c > 0`. -/
def skipNonWordLeft? (b : List Char) : Nat → Option Nat
  | 0 => some 0
  | c + 1 =>
    (ropeChar? b c).bind fun ch =>
      if is_word_char ch then some (c + 1) else skipNonWordLeft? b c

/-- Second loop of `word_start_before` with checked rope accesses. -/
def skipWordLeft? (b : List Char) : Nat → Option Nat
  | 0 => some 0
  | c + 1 =>
    (ropeChar? b c).bind fun ch =>
      if is_word_char ch then skipWordLeft? b c else some (c + 1)

/-- `TextBuffer::word_start_before` with checked rope accesses. -/
def word_start_before? (b : List Char) (p : Pos) : Option Pos :=
  (pos_to_char? b p).bind fun c =>
    if c = 0 then some Pos.zero
    else
      (skipNonWordLeft? b c).bind fun c1 =>
        (skipWordLeft? b c1).bind fun c2 =>
          char_to_pos? b c2

/-- `TextBuffer::word_end_after` with checked rope accesses: both rightward
loops read `rope.char(c)` only under the loop guard `c < maxc`, so their
accesses are in bounds by construction; they are kept in their total form. -/
def word_end_after? (b : List Char) (p : Pos) : Option Pos :=
  (pos_to_char? b p).bind fun c =>
    char_to_pos? b (c + leadingNonWord (b.drop c) +
      leadingWord (b.drop (c + leadingNonWord (b.drop c))))

/-- `TextBuffer::slice_chars` with checked rope accesses. -/
def slice_chars? (b : List Char) (s0 e0 : Nat) : Option (List Char) :=
  let maxc := len_chars b
  let s1 := min s0 maxc
  let e1 := min e0 maxc
  let se := if s1 > e1 then (e1, s1) else (s1, e1)
  ropeSlice? b se.1 se.2

/-- `TextBuffer::slice_selection` with checked rope accesses. -/
def slice_selection? (b : List Char) (sel : Selection) : Option (List Char) :=
  (pos_to_char? b sel.ordered.1).bind fun s =>
    (pos_to_char? b sel.ordered.2).bind fun e =>
      slice_chars? b s e

/-- `TextBuffer::slice_pos_range` with checked rope accesses. -/
def slice_pos_range? (b : List Char) (a c : Pos) : Option (List Char) :=
  (pos_to_char? b a).bind fun s =>
    (pos_to_char? b c).bind fun e =>
      slice_chars? b s e

/-! ## Reachable buffer states

Buffers producible through the public constructors and editing operations
(the only paths that may alter the storage, per the lifecycle rules). -/

/-- Buffer contents reachable through the constructors and the editing
operations of `TextBuffer`. -/
inductive Reachable : List Char → Prop
  | new : Reachable newBuffer
  | from_str (s : String) : Reachable (fromStr s)
  | insert_step (b : List Char) (p : Pos) (t : List Char) :
      Reachable b → Reachable (insert b p t).1
  | delete_range_step (b : List Char) (a c : Pos) :
      Reachable b → Reachable (delete_range b a c).1
  | delete_selection_step (b : List Char) (sel : Selection) :
      Reachable b → Reachable (delete_selection b sel).1
  | backspace_step (b : List Char) (sel : Selection) :
      Reachable b → Reachable (backspace b sel).1
  | delete_step (b : List Char) (sel : Selection) :
      Reachable b → Reachable (delete b sel).1
  | insert_newline_step (b : List Char) (sel : Selection) :
      Reachable b → Reachable (insert_newline b sel).1
  | apply_edit_step (b : List Char) (ed : Edit) :
      Reachable b → Reachable (apply_edit b ed).1
  | replace_selection_step (b : List Char) (sel : Selection) (t : List Char) :
      Reachable b → Reachable (replace_selection b sel t).1

/-! # Lemmas -/

/-! ## Newline counting -/

theorem countNl_nil : countNl ([] : List Char) = 0 := rfl

theorem countNl_cons (c : Char) (l : List Char) :
    countNl (c :: l) = countNl l + (if c = '\n' then 1 else 0) := by
  simp [countNl, List.count_cons]

theorem countNl_append (xs ys : List Char) :
    countNl (xs ++ ys) = countNl xs + countNl ys := by
  simp [countNl, List.count_append]

theorem countNl_take_le (b : List Char) (n : Nat) :
    countNl (b.take n) ≤ countNl b := by
  conv_rhs => rw [← List.take_append_drop n b]
  rw [countNl_append]
  omega

theorem countNl_take_mono (b : List Char) {m n : Nat} (h : m ≤ n) :
    countNl (b.take m) ≤ countNl (b.take n) := by
  have h2 : (b.take n).take m = b.take m := by
    rw [List.take_take]
    congr 1
    omega
  rw [← h2]
  exact countNl_take_le _ _

/-! ## Line starts -/

theorem lineStart_zero (b : List Char) : lineStart b 0 = 0 := by
  cases b <;> rfl

theorem lineStart_nil (n : Nat) : lineStart [] n = 0 := by
  cases n <;> rfl

theorem lineStart_cons (c : Char) (l : List Char) (n : Nat) :
    lineStart (c :: l) (n + 1) =
      1 + lineStart l (if c = '\n' then n else n + 1) := rfl

theorem lineStart_le_length (b : List Char) (n : Nat) :
    lineStart b n ≤ b.length := by
  induction b generalizing n with
  | nil => simp [lineStart_nil]
  | cons c l ih =>
    cases n with
    | zero => simp [lineStart_zero]
    | succ m =>
      rw [lineStart_cons]
      split
      · have := ih m
        simp only [List.length_cons]
        omega
      · have := ih (m + 1)
        simp only [List.length_cons]
        omega

theorem lineStart_mono (b : List Char) {n m : Nat} (h : n ≤ m) :
    lineStart b n ≤ lineStart b m := by
  induction b generalizing n m with
  | nil => simp [lineStart_nil]
  | cons c l ih =>
    cases n with
    | zero => rw [lineStart_zero]; exact Nat.zero_le _
    | succ n1 =>
      cases m with
      | zero => omega
      | succ m1 =>
        rw [lineStart_cons, lineStart_cons]
        split
        · have := ih (show n1 ≤ m1 by omega)
          omega
        · have := ih (show n1 + 1 ≤ m1 + 1 by omega)
          omega

theorem lineStart_append (xs ys : List Char) (n : Nat) :
    lineStart (xs ++ ys) n =
      if n ≤ countNl xs then lineStart xs n
      else xs.length + lineStart ys (n - countNl xs) := by
  induction xs generalizing n with
  | nil =>
    cases n with
    | zero => simp [lineStart_zero, lineStart_nil, countNl_nil]
    | succ m => simp [countNl_nil, lineStart_nil]
  | cons c xs ih =>
    cases n with
    | zero => simp [lineStart_zero]
    | succ m =>
      rw [List.cons_append, lineStart_cons, lineStart_cons, countNl_cons]
      by_cases hc : c = '\n'
      · simp only [hc, eq_self_iff_true, if_true]
        rw [ih m]
        simp only [List.length_cons]
        split
        · rw [if_pos (by omega)]
        · rw [if_neg (by omega)]
          have he : m + 1 - (countNl xs + 1) = m - countNl xs := by omega
          rw [he]
          omega
      · simp only [if_neg hc]
        rw [ih (m + 1)]
        simp only [List.length_cons]
        split
        · rw [if_pos (by omega)]
        · rw [if_neg (by omega)]
          have he : m + 1 - (countNl xs + 0) = m + 1 - countNl xs := by omega
          rw [he]
          omega

theorem lineStart_of_countNl_lt (b : List Char) {n : Nat}
    (h : countNl b < n) : lineStart b n = b.length := by
  induction b generalizing n with
  | nil =>
    cases n with
    | zero => omega
    | succ m => simp [lineStart_nil]
  | cons c l ih =>
    cases n with
    | zero => omega
    | succ m =>
      rw [lineStart_cons]
      rw [countNl_cons] at h
      by_cases hc : c = '\n'
      · rw [if_pos hc]
        rw [if_pos hc] at h
        have := ih (n := m) (by omega)
        simp only [List.length_cons]
        omega
      · rw [if_neg hc]
        rw [if_neg hc] at h
        have := ih (n := m + 1) (by omega)
        simp only [List.length_cons]
        omega

theorem countNl_take_lineStart (b : List Char) (n : Nat) :
    countNl (b.take (lineStart b n)) = min n (countNl b) := by
  induction b generalizing n with
  | nil => simp [lineStart_nil, countNl_nil]
  | cons c l ih =>
    cases n with
    | zero => simp [lineStart_zero, countNl_nil]
    | succ m =>
      rw [lineStart_cons]
      by_cases hc : c = '\n'
      · rw [if_pos hc]
        rw [Nat.add_comm 1 (lineStart l m), List.take_succ_cons, countNl_cons,
          if_pos hc, ih m, countNl_cons, if_pos hc]
        omega
      · rw [if_neg hc]
        rw [Nat.add_comm 1 (lineStart l (m + 1)), List.take_succ_cons,
          countNl_cons, if_neg hc, ih (m + 1), countNl_cons, if_neg hc]
        omega

theorem lineStart_minimal (b : List Char) {n m : Nat}
    (h : m < lineStart b n) : countNl (b.take m) < n := by
  induction b generalizing n m with
  | nil => simp [lineStart_nil] at h
  | cons c l ih =>
    cases n with
    | zero => simp [lineStart_zero] at h
    | succ k =>
      rw [lineStart_cons] at h
      cases m with
      | zero => simp [countNl_nil]
      | succ m1 =>
        rw [List.take_succ_cons, countNl_cons]
        by_cases hc : c = '\n'
        · rw [if_pos hc]
          rw [if_pos hc] at h
          have := ih (n := k) (m := m1) (by omega)
          omega
        · rw [if_neg hc]
          rw [if_neg hc] at h
          have := ih (n := k + 1) (m := m1) (by omega)
          omega

theorem lineStart_le_of_le_countNl_take {b : List Char} {n m : Nat}
    (h : n ≤ countNl (b.take m)) : lineStart b n ≤ m := by
  by_contra hlt
  push_neg at hlt
  have := lineStart_minimal b hlt
  omega

theorem newline_at (b : List Char) {n : Nat} (h : n < countNl b) :
    1 ≤ lineStart b (n + 1) ∧ lineStart b (n + 1) - 1 < b.length ∧
    b.getD (lineStart b (n + 1) - 1) ' ' = '\n' ∧
    countNl (b.take (lineStart b (n + 1) - 1)) = n := by
  have h1 : countNl (b.take (lineStart b (n + 1))) = n + 1 := by
    rw [countNl_take_lineStart]
    omega
  have he1 : 1 ≤ lineStart b (n + 1) := by
    by_contra hz
    push_neg at hz
    have hs : lineStart b (n + 1) = 0 := by omega
    rw [hs, List.take_zero, countNl_nil] at h1
    omega
  have hm : countNl (b.take (lineStart b (n + 1) - 1)) < n + 1 :=
    lineStart_minimal b (by omega)
  have hsplit : b.take (lineStart b (n + 1)) =
      b.take (lineStart b (n + 1) - 1) ++ (b[lineStart b (n + 1) - 1]?).toList := by
    rw [← List.take_succ]
    congr 1
    omega
  rw [hsplit, countNl_append] at h1
  cases hbe : b[lineStart b (n + 1) - 1]? with
  | none =>
    rw [hbe] at h1
    simp [countNl_nil] at h1
    omega
  | some ch =>
    rw [hbe] at h1
    simp only [Option.toList_some] at h1
    rw [countNl_cons, countNl_nil] at h1
    have hch : ch = '\n' := by
      by_contra hne
      rw [if_neg hne] at h1
      omega
    have hlt : lineStart b (n + 1) - 1 < b.length := by
      rcases List.getElem?_eq_some.mp hbe with ⟨hbound, _⟩
      exact hbound
    refine ⟨he1, hlt, ?_, ?_⟩
    · rw [List.getD_eq_getElem?_getD, hbe, hch]
      rfl
    · rw [hch, if_pos rfl] at h1
      omega

/-! ## Line length characterization -/

theorem lineSliceFull_length (b : List Char) (n : Nat) :
    (lineSliceFull b n).length = lineStart b (n + 1) - lineStart b n := by
  unfold lineSliceFull
  rw [List.length_take, List.length_drop]
  have h1 := lineStart_le_length b (n + 1)
  have h2 := lineStart_mono b (show n ≤ n + 1 by omega)
  omega

theorem lineStart_lt_succ (b : List Char) {n : Nat} (h : n < countNl b) :
    lineStart b n < lineStart b (n + 1) := by
  have h1 := countNl_take_lineStart b n
  have h2 := countNl_take_lineStart b (n + 1)
  have h3 := lineStart_mono b (show n ≤ n + 1 by omega)
  by_contra hc
  push_neg at hc
  have heq : lineStart b n = lineStart b (n + 1) := by omega
  rw [heq] at h1
  omega

theorem clamp_line_le (b : List Char) (line : Nat) :
    clamp_line b line ≤ countNl b := by
  simp only [clamp_line, len_lines]
  omega

theorem clamp_line_eq (b : List Char) {line : Nat} (h : line ≤ countNl b) :
    clamp_line b line = line := by
  simp only [clamp_line, len_lines]
  omega

theorem clamp_line_idem (b : List Char) (line : Nat) :
    clamp_line b (clamp_line b line) = clamp_line b line :=
  clamp_line_eq b (clamp_line_le b line)

theorem line_len_chars_clamp (b : List Char) (line : Nat) :
    line_len_chars b (clamp_line b line) = line_len_chars b line := by
  simp only [line_len_chars, clamp_line_idem]

theorem line_len_chars_of_lt (b : List Char) {n : Nat} (h : n < countNl b) :
    line_len_chars b n = lineStart b (n + 1) - lineStart b n - 1 := by
  have hcl : clamp_line b n = n := clamp_line_eq b (by omega)
  have hlen := lineSliceFull_length b n
  have hlt := lineStart_lt_succ b h
  have hnl := newline_at b h
  have hgd : (lineSliceFull b n).getD ((lineSliceFull b n).length - 1) ' '
      = '\n' := by
    rw [hlen]
    unfold lineSliceFull
    rw [List.getD_eq_getElem?_getD, List.getElem?_take, if_pos (by omega),
      List.getElem?_drop]
    have he : lineStart b n + (lineStart b (n + 1) - lineStart b n - 1)
        = lineStart b (n + 1) - 1 := by omega
    rw [he, ← List.getD_eq_getElem?_getD]
    exact hnl.2.2.1
  simp only [line_len_chars, hcl]
  rw [if_pos ⟨by omega, hgd⟩, hlen]

theorem countNl_drop_lineStart_last (b : List Char) :
    countNl (b.drop (lineStart b (countNl b))) = 0 := by
  have h1 := countNl_take_lineStart b (countNl b)
  have h2 : countNl b =
      countNl (b.take (lineStart b (countNl b))) +
      countNl (b.drop (lineStart b (countNl b))) := by
    conv_lhs => rw [← List.take_append_drop (lineStart b (countNl b)) b]
    rw [countNl_append]
  omega

theorem getD_ne_nl_of_countNl_zero {l : List Char} (h : countNl l = 0)
    {i : Nat} (hi : i < l.length) : l.getD i ' ' ≠ '\n' := by
  rw [List.getD_eq_getElem?_getD, List.getElem?_eq_getElem hi]
  intro heq
  have hmem := List.getElem_mem hi
  rw [countNl, List.count_eq_zero] at h
  rw [Option.getD_some] at heq
  exact h (heq ▸ hmem)

theorem line_len_chars_last (b : List Char) :
    line_len_chars b (countNl b) = b.length - lineStart b (countNl b) := by
  have hcl : clamp_line b (countNl b) = countNl b :=
    clamp_line_eq b (by omega)
  have he : lineStart b (countNl b + 1) = b.length :=
    lineStart_of_countNl_lt b (by omega)
  have hlen := lineSliceFull_length b (countNl b)
  rw [he] at hlen
  have hnonl : countNl (lineSliceFull b (countNl b)) = 0 := by
    unfold lineSliceFull
    have := countNl_take_le (b.drop (lineStart b (countNl b)))
      (lineStart b (countNl b + 1) - lineStart b (countNl b))
    have := countNl_drop_lineStart_last b
    omega
  simp only [line_len_chars, hcl]
  rw [if_neg, hlen]
  rintro ⟨hpos, hch⟩
  exact getD_ne_nl_of_countNl_zero hnonl (by omega) hch

theorem lineStart_add_line_len_le_next (b : List Char) {n : Nat}
    (h : n ≤ countNl b) :
    lineStart b n + line_len_chars b n ≤ lineStart b (n + 1) := by
  have hcl : clamp_line b n = n := clamp_line_eq b h
  have hlen := lineSliceFull_length b n
  have h2 := lineStart_mono b (show n ≤ n + 1 by omega)
  simp only [line_len_chars, hcl]
  split <;> omega

theorem lineStart_add_line_len_le (b : List Char) {n : Nat}
    (h : n ≤ countNl b) :
    lineStart b n + line_len_chars b n ≤ b.length := by
  have h1 := lineStart_add_line_len_le_next b h
  have h2 := lineStart_le_length b (n + 1)
  omega

theorem countNl_line_content (b : List Char) {n : Nat} (h : n ≤ countNl b) :
    countNl ((b.drop (lineStart b n)).take (line_len_chars b n)) = 0 := by
  rcases Nat.lt_or_ge n (countNl b) with hlt | hge
  · have hnl := newline_at b hlt
    have hs := lineStart_lt_succ b hlt
    have hsplit : b.take (lineStart b (n + 1) - 1) =
        b.take (lineStart b n) ++
          (b.drop (lineStart b n)).take
            (lineStart b (n + 1) - 1 - lineStart b n) := by
      rw [← List.take_add]
      congr 1
      omega
    have h1 := countNl_take_lineStart b n
    have h2 := hnl.2.2.2
    rw [hsplit, countNl_append] at h2
    have h3 : countNl ((b.drop (lineStart b n)).take
        (lineStart b (n + 1) - 1 - lineStart b n)) = 0 := by omega
    rw [line_len_chars_of_lt b hlt]
    have he : lineStart b (n + 1) - lineStart b n - 1
        = lineStart b (n + 1) - 1 - lineStart b n := by omega
    rw [he]
    exact h3
  · have heq : n = countNl b := by omega
    subst heq
    have h0 := countNl_drop_lineStart_last b
    have := countNl_take_le (b.drop (lineStart b (countNl b)))
      (line_len_chars b (countNl b))
    omega

theorem countNl_take_lineStart_add (b : List Char) {n col : Nat}
    (h : n ≤ countNl b) (hc : col ≤ line_len_chars b n) :
    countNl (b.take (lineStart b n + col)) = n := by
  rw [List.take_add, countNl_append, countNl_take_lineStart]
  have h0 := countNl_line_content b h
  have h1 : countNl ((b.drop (lineStart b n)).take col) ≤
      countNl ((b.drop (lineStart b n)).take (line_len_chars b n)) :=
    countNl_take_mono _ hc
  omega

/-! ## Clamping -/

theorem clamp_pos_line (b : List Char) (p : Pos) :
    (clamp_pos b p).line = clamp_line b p.line := rfl

theorem clamp_pos_line_le (b : List Char) (p : Pos) :
    (clamp_pos b p).line ≤ countNl b := clamp_line_le b p.line

theorem clamp_pos_col_le (b : List Char) (p : Pos) :
    (clamp_pos b p).col ≤ line_len_chars b (clamp_pos b p).line := by
  simp only [clamp_pos]
  omega

theorem clamp_pos_of_valid (b : List Char) {p : Pos}
    (h1 : p.line ≤ countNl b) (h2 : p.col ≤ line_len_chars b p.line) :
    clamp_pos b p = p := by
  cases p with
  | mk line col =>
    simp only [clamp_pos, clamp_line_eq b h1, Pos.mk.injEq, true_and]
    simp only at h2
    omega

theorem clamp_pos_idem (b : List Char) (p : Pos) :
    clamp_pos b (clamp_pos b p) = clamp_pos b p :=
  clamp_pos_of_valid b (clamp_pos_line_le b p) (clamp_pos_col_le b p)

theorem valid_of_clamp_eq {b : List Char} {p : Pos}
    (h : clamp_pos b p = p) :
    p.line ≤ countNl b ∧ p.col ≤ line_len_chars b p.line :=
  ⟨h ▸ clamp_pos_line_le b p, h ▸ clamp_pos_col_le b p⟩

/-! ## Offset bounds -/

theorem pos_to_char_eq {b : List Char} {p : Pos} (h : clamp_pos b p = p) :
    pos_to_char b p = lineStart b p.line + p.col := by
  simp only [pos_to_char, h]

theorem pos_to_char_le (b : List Char) (p : Pos) :
    pos_to_char b p ≤ b.length := by
  simp only [pos_to_char]
  have h1 := clamp_pos_col_le b p
  have h2 := lineStart_add_line_len_le b (clamp_pos_line_le b p)
  omega

theorem pos_to_char_lt_of_col_lt {b : List Char} {p : Pos}
    (h : clamp_pos b p = p) (hc : p.col < line_len_chars b p.line) :
    pos_to_char b p < b.length := by
  rw [pos_to_char_eq h]
  have h1 := lineStart_add_line_len_le b (valid_of_clamp_eq h).1
  omega

/-! ## Round trips -/

theorem char_to_pos_pos_to_char (b : List Char) (p : Pos)
    (h1 : p.line ≤ countNl b) (h2 : p.col ≤ line_len_chars b p.line) :
    char_to_pos b (pos_to_char b p) = p := by
  have hv : clamp_pos b p = p := clamp_pos_of_valid b h1 h2
  rw [pos_to_char_eq hv]
  have hle : lineStart b p.line + p.col ≤ b.length := by
    have := lineStart_add_line_len_le b h1
    omega
  simp only [char_to_pos, len_chars]
  rw [Nat.min_eq_left hle]
  have hct : charToLine b (lineStart b p.line + p.col) = p.line :=
    countNl_take_lineStart_add b h1 h2
  rw [hct]
  have hsub : lineStart b p.line + p.col - lineStart b p.line = p.col := by
    omega
  rw [hsub, Nat.min_eq_left h2]

theorem lineStart_charToLine_le (b : List Char) (c : Nat) :
    lineStart b (charToLine b c) ≤ c :=
  lineStart_le_of_le_countNl_take (Nat.le_refl _)

theorem charToLine_le_countNl (b : List Char) (c : Nat) :
    charToLine b c ≤ countNl b := countNl_take_le b c

theorem sub_lineStart_le_line_len (b : List Char) {c : Nat}
    (h : c ≤ b.length) :
    c - lineStart b (charToLine b c) ≤ line_len_chars b (charToLine b c) := by
  have hlc : charToLine b c ≤ countNl b := charToLine_le_countNl b c
  rcases Nat.lt_or_ge (charToLine b c) (countNl b) with hlt | hge
  · have hce : c < lineStart b (charToLine b c + 1) := by
      by_contra hcc
      push_neg at hcc
      have hmono := countNl_take_mono b hcc
      have h2 := countNl_take_lineStart b (charToLine b c + 1)
      have h3 : countNl (b.take c) = charToLine b c := rfl
      omega
    rw [line_len_chars_of_lt b hlt]
    have hs := lineStart_charToLine_le b c
    omega
  · have heq : charToLine b c = countNl b := by omega
    rw [heq, line_len_chars_last]
    omega

theorem pos_to_char_char_to_pos (b : List Char) (c : Nat)
    (h : c ≤ len_chars b) :
    pos_to_char b (char_to_pos b c) = c := by
  simp only [len_chars] at h
  have h1 : c - lineStart b (charToLine b c) ≤
      line_len_chars b (charToLine b c) := sub_lineStart_le_line_len b h
  have h3 : charToLine b c ≤ countNl b := charToLine_le_countNl b c
  have h4 : lineStart b (charToLine b c) ≤ c := lineStart_charToLine_le b c
  simp only [char_to_pos, len_chars]
  rw [Nat.min_eq_left h, Nat.min_eq_left h1]
  rw [pos_to_char_eq (clamp_pos_of_valid b h3 h1)]
  dsimp only
  omega

theorem char_to_pos_valid (b : List Char) (c : Nat) :
    clamp_pos b (char_to_pos b c) = char_to_pos b c := by
  apply clamp_pos_of_valid
  · exact charToLine_le_countNl b (min c (len_chars b))
  · simp only [char_to_pos]
    omega

/-! ## Prefix stability

Any position valid in `b` is recovered by `char_to_pos` from its offset in
any buffer that agrees with `b` up to that offset.  This is the key fact
behind the returned positions of the mutating operations. -/

theorem char_to_pos_agree (b b2 : List Char) (p : Pos)
    (h : clamp_pos b p = p)
    (hm : b2.take (pos_to_char b p) = b.take (pos_to_char b p))
    (hlen : pos_to_char b p ≤ b2.length) :
    char_to_pos b2 (pos_to_char b p) = p := by
  obtain ⟨h1, h2⟩ := valid_of_clamp_eq h
  have hme : pos_to_char b p = lineStart b p.line + p.col := pos_to_char_eq h
  have hcl2 : charToLine b2 (pos_to_char b p) = p.line := by
    show countNl (b2.take (pos_to_char b p)) = p.line
    rw [hm, hme]
    exact countNl_take_lineStart_add b h1 h2
  have hclb : countNl (b.take (pos_to_char b p)) = p.line := by
    rw [hme]
    exact countNl_take_lineStart_add b h1 h2
  have hls2 : lineStart b2 p.line = lineStart b p.line := by
    have e1 : lineStart b2 p.line = lineStart (b2.take (pos_to_char b p)) p.line := by
      conv_lhs => rw [← List.take_append_drop (pos_to_char b p) b2]
      rw [lineStart_append, if_pos (by rw [show countNl (b2.take (pos_to_char b p)) = p.line from hcl2])]
    have e2 : lineStart b p.line = lineStart (b.take (pos_to_char b p)) p.line := by
      conv_lhs => rw [← List.take_append_drop (pos_to_char b p) b]
      rw [lineStart_append, if_pos (by rw [hclb])]
    rw [e1, hm, ← e2]
  have hsub := sub_lineStart_le_line_len b2 hlen
  rw [hcl2, hls2] at hsub
  simp only [char_to_pos, len_chars]
  rw [Nat.min_eq_left hlen, hcl2, hls2]
  have hcol : min (pos_to_char b p - lineStart b p.line)
      (line_len_chars b2 p.line) = p.col := by
    rw [hme] at hsub ⊢
    omega
  rw [hcol]

/-! ## Order and offsets -/

theorem posLe_refl (p : Pos) : posLe p p = true := by
  simp [posLe]

theorem posLe_total (p q : Pos) : posLe p q = true ∨ posLe q p = true := by
  simp only [posLe, decide_eq_true_eq]
  omega

theorem posLe_antisymm {p q : Pos} (h1 : posLe p q = true)
    (h2 : posLe q p = true) : p = q := by
  cases p with
  | mk a c =>
    cases q with
    | mk a2 c2 =>
      simp only [posLe, decide_eq_true_eq] at h1 h2
      simp only [Pos.mk.injEq]
      omega

theorem pos_to_char_mono (b : List Char) {p q : Pos}
    (hp : clamp_pos b p = p) (hq : clamp_pos b q = q)
    (hle : posLe p q = true) : pos_to_char b p ≤ pos_to_char b q := by
  rw [pos_to_char_eq hp, pos_to_char_eq hq]
  simp only [posLe, decide_eq_true_eq] at hle
  obtain ⟨hp1, hp2⟩ := valid_of_clamp_eq hp
  rcases hle with hlt | ⟨heq, hcol⟩
  · have h1 := lineStart_add_line_len_le_next b hp1
    have h2 := lineStart_mono b (show p.line + 1 ≤ q.line by omega)
    omega
  · rw [heq]
    omega

/-! ## Ordered clamped endpoints -/

theorem min_pos_clamp (b : List Char) (a c : Pos) :
    clamp_pos b (min_pos b a c) = min_pos b a c := by
  simp only [min_pos]
  split <;> exact clamp_pos_idem b _

theorem max_pos_clamp (b : List Char) (a c : Pos) :
    clamp_pos b (max_pos b a c) = max_pos b a c := by
  simp only [max_pos]
  split <;> exact clamp_pos_idem b _

theorem posLe_min_max (b : List Char) (a c : Pos) :
    posLe (min_pos b a c) (max_pos b a c) = true := by
  simp only [min_pos, max_pos]
  by_cases h1 : posLe (clamp_pos b a) (clamp_pos b c)
  · rw [if_pos h1]
    by_cases h2 : posLe (clamp_pos b c) (clamp_pos b a)
    · rw [if_pos h2]
      exact posLe_refl _
    · rw [if_neg h2]
      exact h1
  · rw [if_neg h1]
    by_cases h2 : posLe (clamp_pos b c) (clamp_pos b a)
    · rw [if_pos h2]
      exact h2
    · rcases posLe_total (clamp_pos b a) (clamp_pos b c) with h | h
      · exact absurd h h1
      · exact absurd h h2

theorem pos_to_char_min_le_max (b : List Char) (a c : Pos) :
    pos_to_char b (min_pos b a c) ≤ pos_to_char b (max_pos b a c) :=
  pos_to_char_mono b (min_pos_clamp b a c) (max_pos_clamp b a c)
    (posLe_min_max b a c)

/-- `delete_range` in closed form: the new content is the old one with the
ordered clamped range cut out, and the returned position is the ordered
range's start as a position — unchanged by the deletion. -/
theorem delete_range_eq (b : List Char) (a c : Pos) :
    delete_range b a c =
      (ropeRemove b (pos_to_char b (min_pos b a c))
         (pos_to_char b (max_pos b a c)),
       min_pos b a c) := by
  have hse := pos_to_char_min_le_max b a c
  have hsl := pos_to_char_le b (min_pos b a c)
  have hel := pos_to_char_le b (max_pos b a c)
  simp only [delete_range]
  have hb1 : (if pos_to_char b (min_pos b a c) < pos_to_char b (max_pos b a c)
      then ropeRemove b (pos_to_char b (min_pos b a c))
        (pos_to_char b (max_pos b a c))
      else b) =
      ropeRemove b (pos_to_char b (min_pos b a c))
        (pos_to_char b (max_pos b a c)) := by
    split
    · rfl
    · have heq : pos_to_char b (min_pos b a c)
          = pos_to_char b (max_pos b a c) := by omega
      rw [← heq]
      unfold ropeRemove
      rw [List.take_append_drop]
  rw [hb1]
  have htl : (b.take (pos_to_char b (min_pos b a c))).length
      = pos_to_char b (min_pos b a c) := by
    rw [List.length_take]
    omega
  have hprefix : (ropeRemove b (pos_to_char b (min_pos b a c))
      (pos_to_char b (max_pos b a c))).take (pos_to_char b (min_pos b a c))
      = b.take (pos_to_char b (min_pos b a c)) := by
    unfold ropeRemove
    exact List.take_left' htl
  have hlen2 : pos_to_char b (min_pos b a c) ≤
      (ropeRemove b (pos_to_char b (min_pos b a c))
        (pos_to_char b (max_pos b a c))).length := by
    unfold ropeRemove
    rw [List.length_append, List.length_take, List.length_drop]
    omega
  have hpos := char_to_pos_agree b
    (ropeRemove b (pos_to_char b (min_pos b a c))
      (pos_to_char b (max_pos b a c)))
    (min_pos b a c) (min_pos_clamp b a c) hprefix hlen2
  rw [hpos]

/-! ## Slicing commutes -/

theorem slice_chars_comm (b : List Char) (s e : Nat) :
    slice_chars b s e = slice_chars b e s := by
  simp only [slice_chars]
  by_cases h1 : min s (len_chars b) > min e (len_chars b)
  · rw [if_pos h1, if_neg (by omega)]
  · by_cases h2 : min e (len_chars b) > min s (len_chars b)
    · rw [if_neg h1, if_pos h2]
    · have he : min s (len_chars b) = min e (len_chars b) := by omega
      rw [he]

/-! ## apply_edit in closed form -/

theorem apply_edit_core (b : List Char) (s e : Nat) (ins : List Char)
    (hse : s ≤ e) (hel : e ≤ len_chars b) :
    (if ins ≠ [] then
       (ropeInsert (if s < e then ropeRemove b s e else b) s ins,
        char_to_pos (ropeInsert (if s < e then ropeRemove b s e else b) s ins)
          (s + ins.length))
     else
       ((if s < e then ropeRemove b s e else b),
        char_to_pos (if s < e then ropeRemove b s e else b) s)) =
    (b.take s ++ ins ++ b.drop e,
     char_to_pos (b.take s ++ ins ++ b.drop e) (s + ins.length)) := by
  simp only [len_chars] at hel
  have hcontent : (if s < e then ropeRemove b s e else b)
      = b.take s ++ b.drop e := by
    split
    · rfl
    · have hseq : s = e := by omega
      subst hseq
      exact (List.take_append_drop s b).symm
  rw [hcontent]
  by_cases hins : ins = []
  · subst hins
    rw [if_neg (fun hcon => hcon rfl)]
    simp only [List.append_nil, List.length_nil, Nat.add_zero]
  · rw [if_pos hins]
    have h1 : (b.take s ++ b.drop e).take s = b.take s :=
      List.take_left' (by rw [List.length_take]; omega)
    have h2 : (b.take s ++ b.drop e).drop s = b.drop e :=
      List.drop_left' (by rw [List.length_take]; omega)
    unfold ropeInsert
    rw [h1, h2]

theorem apply_edit_eqn (b : List Char) (ed : Edit) :
    apply_edit b ed =
      (b.take (min (min ed.rangeStart (len_chars b))
          (min ed.rangeEnd (len_chars b))) ++ ed.insert ++
       b.drop (max (min ed.rangeStart (len_chars b))
          (min ed.rangeEnd (len_chars b))),
       char_to_pos
         (b.take (min (min ed.rangeStart (len_chars b))
            (min ed.rangeEnd (len_chars b))) ++ ed.insert ++
          b.drop (max (min ed.rangeStart (len_chars b))
            (min ed.rangeEnd (len_chars b))))
         (min (min ed.rangeStart (len_chars b))
            (min ed.rangeEnd (len_chars b)) + ed.insert.length)) := by
  simp only [apply_edit]
  by_cases hord : min ed.rangeStart (len_chars b) ≤ min ed.rangeEnd (len_chars b)
  · rw [if_pos hord]
    dsimp only
    rw [Nat.min_eq_left hord, Nat.max_eq_right hord]
    exact apply_edit_core b _ _ _ hord (Nat.min_le_right _ _)
  · push_neg at hord
    rw [if_neg (show ¬(min ed.rangeStart (len_chars b) ≤
        min ed.rangeEnd (len_chars b)) by omega)]
    dsimp only
    rw [Nat.min_eq_right (show min ed.rangeEnd (len_chars b) ≤
          min ed.rangeStart (len_chars b) by omega),
        Nat.max_eq_left (show min ed.rangeEnd (len_chars b) ≤
          min ed.rangeStart (len_chars b) by omega)]
    exact apply_edit_core b (min ed.rangeEnd (len_chars b))
      (min ed.rangeStart (len_chars b)) ed.insert (by omega)
      (Nat.min_le_right _ _)

/-! ## Removal keeps positions before the removed range -/

theorem char_to_pos_remove_agree (b : List Char) {s e : Nat} (hse : s ≤ e)
    (hel : e ≤ b.length) :
    char_to_pos (ropeRemove b s e) s = char_to_pos b s := by
  have hvalid := char_to_pos_valid b s
  have hptc : pos_to_char b (char_to_pos b s) = s :=
    pos_to_char_char_to_pos b s (by simp only [len_chars]; omega)
  have hm : (ropeRemove b s e).take (pos_to_char b (char_to_pos b s))
      = b.take (pos_to_char b (char_to_pos b s)) := by
    rw [hptc]
    unfold ropeRemove
    exact List.take_left' (by rw [List.length_take]; omega)
  have hlen : pos_to_char b (char_to_pos b s) ≤ (ropeRemove b s e).length := by
    rw [hptc]
    unfold ropeRemove
    rw [List.length_append, List.length_take, List.length_drop]
    omega
  have h := char_to_pos_agree b (ropeRemove b s e) (char_to_pos b s)
    hvalid hm hlen
  rw [hptc] at h
  exact h

/-! ## Totality of the checked operations -/

theorem ropeChar?_eq {b : List Char} {i : Nat} (h : i < b.length) :
    ropeChar? b i = some (b.getD i ' ') := by
  simp only [ropeChar?]
  rw [List.getElem?_eq_getElem h, List.getD_eq_getElem?_getD,
    List.getElem?_eq_getElem h]
  rfl

theorem line?_eq (b : List Char) {n : Nat} (h : n ≤ countNl b) :
    line? b n = some (lineSliceFull b n) := by
  simp only [line?, len_lines]
  rw [if_pos (by omega)]

theorem lineToChar?_eq (b : List Char) {n : Nat} (h : n ≤ countNl b + 1) :
    lineToChar? b n = some (lineStart b n) := by
  simp only [lineToChar?, len_lines]
  rw [if_pos (by omega)]

theorem charToLine?_eq (b : List Char) {c : Nat} (h : c ≤ b.length) :
    charToLine? b c = some (charToLine b c) := by
  simp only [charToLine?, len_chars]
  rw [if_pos h]

theorem ropeInsert?_eq (b : List Char) {at_ : Nat} (t : List Char)
    (h : at_ ≤ b.length) :
    ropeInsert? b at_ t = some (ropeInsert b at_ t) := by
  simp only [ropeInsert?, len_chars]
  rw [if_pos h]

theorem ropeRemove?_eq (b : List Char) {s e : Nat} (h1 : s ≤ e)
    (h2 : e ≤ b.length) :
    ropeRemove? b s e = some (ropeRemove b s e) := by
  simp only [ropeRemove?, len_chars]
  rw [if_pos ⟨h1, h2⟩]

theorem line_len_chars?_eq (b : List Char) (line : Nat) :
    line_len_chars? b line = some (line_len_chars b line) := by
  simp only [line_len_chars?]
  rw [line?_eq b (clamp_line_le b line)]
  simp only [Option.some_bind]
  by_cases h0 : 0 < (lineSliceFull b (clamp_line b line)).length
  · rw [if_pos h0]
    rw [ropeChar?_eq (show (lineSliceFull b (clamp_line b line)).length - 1
        < (lineSliceFull b (clamp_line b line)).length by omega)]
    simp only [Option.some_bind]
    by_cases hc : (lineSliceFull b (clamp_line b line)).getD
        ((lineSliceFull b (clamp_line b line)).length - 1) ' ' = '\n'
    · rw [if_pos hc]
      simp only [line_len_chars]
      rw [if_pos ⟨h0, hc⟩]
    · rw [if_neg hc]
      simp only [line_len_chars]
      rw [if_neg (by rintro ⟨_, hcc⟩; exact hc hcc)]
  · rw [if_neg h0]
    simp only [line_len_chars]
    rw [if_neg (by rintro ⟨hp, _⟩; exact h0 hp)]

theorem clamp_pos?_eq (b : List Char) (p : Pos) :
    clamp_pos? b p = some (clamp_pos b p) := by
  simp only [clamp_pos?]
  rw [line_len_chars?_eq]
  simp only [Option.some_bind]
  rfl

theorem pos_to_char?_eq (b : List Char) (p : Pos) :
    pos_to_char? b p = some (pos_to_char b p) := by
  simp only [pos_to_char?]
  rw [clamp_pos?_eq]
  simp only [Option.some_bind]
  rw [lineToChar?_eq b (show (clamp_pos b p).line ≤ countNl b + 1 by
    have := clamp_pos_line_le b p
    omega)]
  simp only [Option.some_bind, pos_to_char]

theorem char_to_pos?_eq (b : List Char) (c : Nat) :
    char_to_pos? b c = some (char_to_pos b c) := by
  simp only [char_to_pos?]
  rw [charToLine?_eq b (show min c (len_chars b) ≤ b.length by
    simp only [len_chars]
    omega)]
  simp only [Option.some_bind]
  rw [lineToChar?_eq b (show charToLine b (min c (len_chars b)) ≤
      countNl b + 1 by
    have := charToLine_le_countNl b (min c (len_chars b))
    omega)]
  simp only [Option.some_bind]
  rw [line_len_chars?_eq]
  simp only [Option.some_bind, char_to_pos]

theorem move_left?_eq (b : List Char) (p : Pos) :
    move_left? b p = some (move_left b p) := by
  simp only [move_left?, move_left]
  rw [pos_to_char?_eq]
  simp only [Option.some_bind]
  split
  · rfl
  · exact char_to_pos?_eq b _

theorem move_right?_eq (b : List Char) (p : Pos) :
    move_right? b p = some (move_right b p) := by
  simp only [move_right?, move_right]
  rw [pos_to_char?_eq]
  simp only [Option.some_bind]
  split
  · exact char_to_pos?_eq b _
  · exact char_to_pos?_eq b _

theorem move_up?_eq (b : List Char) (p : Pos) :
    move_up? b p = some (move_up b p) := by
  simp only [move_up?, move_up]
  rw [clamp_pos?_eq]
  simp only [Option.some_bind]
  split
  · rfl
  · rw [line_len_chars?_eq]
    simp only [Option.some_bind]

theorem move_down?_eq (b : List Char) (p : Pos) :
    move_down? b p = some (move_down b p) := by
  simp only [move_down?, move_down]
  rw [clamp_pos?_eq]
  simp only [Option.some_bind]
  split
  · rfl
  · rw [line_len_chars?_eq]
    simp only [Option.some_bind]

theorem char_at?_eq (b : List Char) (p : Pos) :
    char_at? b p = some (char_at b p) := by
  simp only [char_at?, char_at]
  rw [clamp_pos?_eq]
  simp only [Option.some_bind]
  rw [line_len_chars?_eq]
  simp only [Option.some_bind]
  split_ifs with hcond
  · rfl
  · rw [pos_to_char?_eq]
    simp only [Option.some_bind]
    push_neg at hcond
    rw [ropeChar?_eq
      (pos_to_char_lt_of_col_lt (clamp_pos_idem b p) hcond)]
    simp only [Option.some_bind]

theorem char_before?_eq (b : List Char) (p : Pos) :
    char_before? b p = some (char_before b p) := by
  simp only [char_before?, char_before]
  rw [pos_to_char?_eq]
  simp only [Option.some_bind]
  split_ifs with hcond
  · rfl
  · have hle := pos_to_char_le b p
    rw [ropeChar?_eq (show pos_to_char b p - 1 < b.length by omega)]
    simp only [Option.some_bind]

theorem min_pos?_eq (b : List Char) (a c : Pos) :
    min_pos? b a c = some (min_pos b a c) := by
  simp only [min_pos?, min_pos]
  rw [clamp_pos?_eq, clamp_pos?_eq]
  simp only [Option.some_bind]

theorem max_pos?_eq (b : List Char) (a c : Pos) :
    max_pos? b a c = some (max_pos b a c) := by
  simp only [max_pos?, max_pos]
  rw [clamp_pos?_eq, clamp_pos?_eq]
  simp only [Option.some_bind]

theorem insert?_eq (b : List Char) (p : Pos) (t : List Char) :
    insert? b p t = some (insert b p t) := by
  simp only [insert?, insert]
  rw [pos_to_char?_eq]
  simp only [Option.some_bind]
  rw [ropeInsert?_eq b t (pos_to_char_le b p)]
  simp only [Option.some_bind]
  rw [char_to_pos?_eq]
  simp only [Option.some_bind]

theorem delete_range?_eq (b : List Char) (a c : Pos) :
    delete_range? b a c = some (delete_range b a c) := by
  simp only [delete_range?, delete_range]
  rw [min_pos?_eq]
  simp only [Option.some_bind]
  rw [pos_to_char?_eq]
  simp only [Option.some_bind]
  rw [max_pos?_eq]
  simp only [Option.some_bind]
  rw [pos_to_char?_eq]
  simp only [Option.some_bind]
  split_ifs with hlt
  · rw [ropeRemove?_eq b (by omega) (pos_to_char_le b _)]
    simp only [Option.some_bind]
    rw [char_to_pos?_eq]
    simp only [Option.some_bind]
  · simp only [Option.some_bind]
    rw [char_to_pos?_eq]
    simp only [Option.some_bind]

theorem delete_selection?_eq (b : List Char) (sel : Selection) :
    delete_selection? b sel = some (delete_selection b sel) := by
  simp only [delete_selection?, delete_selection]
  split_ifs with h
  · rw [clamp_pos?_eq]
    simp only [Option.some_bind]
  · rw [delete_range?_eq]
    simp only [Option.some_bind]

theorem backspace?_eq (b : List Char) (sel : Selection) :
    backspace? b sel = some (backspace b sel) := by
  simp only [backspace?, backspace]
  split_ifs with h h0
  · rw [delete_selection?_eq]
    simp only [Option.some_bind]
  · rw [clamp_pos?_eq]
    simp only [Option.some_bind]
    rw [pos_to_char?_eq]
    simp only [Option.some_bind]
    rw [if_pos h0]
  · rw [clamp_pos?_eq]
    simp only [Option.some_bind]
    rw [pos_to_char?_eq]
    simp only [Option.some_bind]
    rw [if_neg h0]
    rw [ropeRemove?_eq b (by omega)
      (pos_to_char_le b (clamp_pos b sel.cursor))]
    simp only [Option.some_bind]
    rw [char_to_pos?_eq]
    simp only [Option.some_bind]

theorem delete?_eq (b : List Char) (sel : Selection) :
    delete? b sel = some (delete b sel) := by
  simp only [delete?, delete]
  split_ifs with h h0
  · rw [delete_selection?_eq]
    simp only [Option.some_bind]
  · rw [clamp_pos?_eq]
    simp only [Option.some_bind]
    rw [pos_to_char?_eq]
    simp only [Option.some_bind]
    rw [if_pos h0]
  · rw [clamp_pos?_eq]
    simp only [Option.some_bind]
    rw [pos_to_char?_eq]
    simp only [Option.some_bind]
    rw [if_neg h0]
    rw [ropeRemove?_eq b (by omega)
      (show pos_to_char b (clamp_pos b sel.cursor) + 1 ≤ b.length by
        simp only [len_chars] at h0
        omega)]
    simp only [Option.some_bind]
    rw [char_to_pos?_eq]
    simp only [Option.some_bind]

theorem insert_newline?_eq (b : List Char) (sel : Selection) :
    insert_newline? b sel = some (insert_newline b sel) := by
  simp only [insert_newline?, insert_newline]
  split_ifs with h
  · rw [delete_range?_eq]
    simp only [Option.some_bind]
    rw [insert?_eq]
    simp only [Option.some_bind]
  · rw [clamp_pos?_eq]
    simp only [Option.some_bind]
    rw [insert?_eq]
    simp only [Option.some_bind]

theorem insertStep?_eq (b1 : List Char) (s : Nat) (ins : List Char)
    (h : s ≤ b1.length) :
    (if ins ≠ [] then
       (ropeInsert? b1 s ins).bind fun b2 =>
         (char_to_pos? b2 (s + ins.length)).bind fun p => some (b2, p)
     else
       (char_to_pos? b1 s).bind fun p => some (b1, p)) =
    some (if ins ≠ [] then
       (ropeInsert b1 s ins,
        char_to_pos (ropeInsert b1 s ins) (s + ins.length))
     else (b1, char_to_pos b1 s)) := by
  split_ifs with hins
  · rw [ropeInsert?_eq b1 ins h]
    simp only [Option.some_bind]
    rw [char_to_pos?_eq]
    simp only [Option.some_bind]
  · rw [char_to_pos?_eq]
    simp only [Option.some_bind]

theorem apply_edit?_eq (b : List Char) (ed : Edit) :
    apply_edit? b ed = some (apply_edit b ed) := by
  simp only [apply_edit?, apply_edit]
  by_cases hord : min ed.rangeStart (len_chars b) ≤
      min ed.rangeEnd (len_chars b)
  · rw [if_pos hord]
    dsimp only
    by_cases hlt : min ed.rangeStart (len_chars b) <
        min ed.rangeEnd (len_chars b)
    · rw [if_pos hlt, if_pos hlt,
        ropeRemove?_eq b (by omega) (by simp only [len_chars]; omega)]
      simp only [Option.some_bind]
      exact insertStep?_eq _ _ _
        (by
          unfold ropeRemove
          rw [List.length_append, List.length_take, List.length_drop]
          simp only [len_chars]
          omega)
    · rw [if_neg hlt, if_neg hlt]
      simp only [Option.some_bind]
      exact insertStep?_eq _ _ _ (by simp only [len_chars]; omega)
  · rw [if_neg hord]
    dsimp only
    by_cases hlt : min ed.rangeEnd (len_chars b) <
        min ed.rangeStart (len_chars b)
    · rw [if_pos hlt, if_pos hlt,
        ropeRemove?_eq b (by omega) (by simp only [len_chars]; omega)]
      simp only [Option.some_bind]
      exact insertStep?_eq _ _ _
        (by
          unfold ropeRemove
          rw [List.length_append, List.length_take, List.length_drop]
          simp only [len_chars]
          omega)
    · rw [if_neg hlt, if_neg hlt]
      simp only [Option.some_bind]
      exact insertStep?_eq _ _ _ (by simp only [len_chars]; omega)

theorem replace_selection?_eq (b : List Char) (sel : Selection)
    (t : List Char) :
    replace_selection? b sel t = some (replace_selection b sel t) := by
  simp only [replace_selection?, replace_selection]
  split_ifs with h
  · rw [delete_range?_eq]
    simp only [Option.some_bind]
    rw [insert?_eq]
    simp only [Option.some_bind]
  · rw [insert?_eq]
    simp only [Option.some_bind]

theorem skipNonWordLeft_le (b : List Char) (c : Nat) :
    skipNonWordLeft b c ≤ c := by
  induction c with
  | zero => simp [skipNonWordLeft]
  | succ c ih =>
    simp only [skipNonWordLeft]
    split
    · exact Nat.le_refl _
    · omega

theorem skipNonWordLeft?_eq (b : List Char) {c : Nat} (h : c ≤ b.length) :
    skipNonWordLeft? b c = some (skipNonWordLeft b c) := by
  induction c with
  | zero => rfl
  | succ c ih =>
    simp only [skipNonWordLeft?, skipNonWordLeft]
    rw [ropeChar?_eq (show c < b.length by omega)]
    simp only [Option.some_bind]
    split
    · rfl
    · exact ih (by omega)

theorem skipWordLeft?_eq (b : List Char) {c : Nat} (h : c ≤ b.length) :
    skipWordLeft? b c = some (skipWordLeft b c) := by
  induction c with
  | zero => rfl
  | succ c ih =>
    simp only [skipWordLeft?, skipWordLeft]
    rw [ropeChar?_eq (show c < b.length by omega)]
    simp only [Option.some_bind]
    split
    · exact ih (by omega)
    · rfl

theorem word_start_before?_eq (b : List Char) (p : Pos) :
    word_start_before? b p = some (word_start_before b p) := by
  simp only [word_start_before?, word_start_before]
  rw [pos_to_char?_eq]
  simp only [Option.some_bind]
  split_ifs with h0
  · rfl
  · rw [skipNonWordLeft?_eq b (pos_to_char_le b p)]
    simp only [Option.some_bind]
    rw [skipWordLeft?_eq b
      (Nat.le_trans (skipNonWordLeft_le b _) (pos_to_char_le b p))]
    simp only [Option.some_bind]
    exact char_to_pos?_eq b _

theorem word_end_after?_eq (b : List Char) (p : Pos) :
    word_end_after? b p = some (word_end_after b p) := by
  simp only [word_end_after?, word_end_after]
  rw [pos_to_char?_eq]
  simp only [Option.some_bind]
  exact char_to_pos?_eq b _

theorem line_string?_eq (b : List Char) (line : Nat) :
    line_string? b line = some (line_string b line) := by
  simp only [line_string?, line_string]
  rw [line?_eq b (clamp_line_le b line)]
  simp only [Option.some_bind]

theorem line_to_char?_eq (b : List Char) (line : Nat) :
    line_to_char? b line = some (line_to_char b line) := by
  simp only [line_to_char?, line_to_char]
  exact lineToChar?_eq b (by have := clamp_line_le b line; omega)

theorem char_to_line?_eq (b : List Char) (c : Nat) :
    char_to_line? b c = some (char_to_line b c) := by
  simp only [char_to_line?, char_to_line]
  exact charToLine?_eq b (by simp only [len_chars]; omega)

theorem line_char_range?_eq (b : List Char) (line : Nat) :
    line_char_range? b line = some (line_char_range b line) := by
  have hend : lineStart b (clamp_line b line) +
      (lineSliceFull b (clamp_line b line)).length ≤ b.length := by
    have h1 := lineSliceFull_length b (clamp_line b line)
    have h2 := lineStart_le_length b (clamp_line b line + 1)
    have h3 := lineStart_mono b (show clamp_line b line ≤
      clamp_line b line + 1 by omega)
    omega
  simp only [line_char_range?, line_char_range]
  rw [lineToChar?_eq b (by have := clamp_line_le b line; omega)]
  simp only [Option.some_bind]
  rw [line?_eq b (clamp_line_le b line)]
  simp only [Option.some_bind]
  by_cases hgt : lineStart b (clamp_line b line) +
      (lineSliceFull b (clamp_line b line)).length >
      lineStart b (clamp_line b line)
  · rw [if_pos hgt]
    rw [ropeChar?_eq (show lineStart b (clamp_line b line) +
        (lineSliceFull b (clamp_line b line)).length - 1 < b.length by
      omega)]
    simp only [Option.some_bind]
    by_cases hch : b.getD (lineStart b (clamp_line b line) +
        (lineSliceFull b (clamp_line b line)).length - 1) ' ' = '\n'
    · rw [if_pos hch, if_pos (⟨hgt, hch⟩ :
        lineStart b (clamp_line b line) +
          (lineSliceFull b (clamp_line b line)).length >
          lineStart b (clamp_line b line) ∧
        b.getD (lineStart b (clamp_line b line) +
          (lineSliceFull b (clamp_line b line)).length - 1) ' ' = '\n')]
    · rw [if_neg hch, if_neg (by rintro ⟨_, hc2⟩; exact hch hc2)]
  · rw [if_neg hgt, if_neg (by rintro ⟨hc1, _⟩; exact hgt hc1)]

theorem slice_chars?_eq (b : List Char) (s0 e0 : Nat) :
    slice_chars? b s0 e0 = some (slice_chars b s0 e0) := by
  simp only [slice_chars?, slice_chars, ropeSlice?]
  by_cases hswap : min s0 (len_chars b) > min e0 (len_chars b)
  · rw [if_pos hswap]
    dsimp only
    rw [if_pos (⟨by omega, by simp only [len_chars]; omega⟩ :
      min e0 (len_chars b) ≤ min s0 (len_chars b) ∧
      min s0 (len_chars b) ≤ len_chars b)]
  · rw [if_neg hswap]
    dsimp only
    rw [if_pos (⟨by omega, by simp only [len_chars]; omega⟩ :
      min s0 (len_chars b) ≤ min e0 (len_chars b) ∧
      min e0 (len_chars b) ≤ len_chars b)]

theorem slice_selection?_eq (b : List Char) (sel : Selection) :
    slice_selection? b sel = some (slice_selection b sel) := by
  simp only [slice_selection?, slice_selection]
  rw [pos_to_char?_eq]
  simp only [Option.some_bind]
  rw [pos_to_char?_eq]
  simp only [Option.some_bind]
  exact slice_chars?_eq b _ _

theorem slice_pos_range?_eq (b : List Char) (a c : Pos) :
    slice_pos_range? b a c = some (slice_pos_range b a c) := by
  simp only [slice_pos_range?, slice_pos_range]
  rw [pos_to_char?_eq]
  simp only [Option.some_bind]
  rw [pos_to_char?_eq]
  simp only [Option.some_bind]
  exact slice_chars?_eq b _ _

/-! # Claims -/

/-- Claim C1: every in-memory operation of the buffer engine is total.
Each operation, re-run with every internal rope access bounds-checked
(returning `none` exactly where the rope primitive would panic), returns
`some` of its value, for every buffer state and every — also out-of-range —
position, offset, selection, or edit: no internal rope access is ever out
of bounds. -/
theorem c1_all_operations_total :
    (∀ (b : List Char) (p : Pos), clamp_pos? b p = some (clamp_pos b p)) ∧
    (∀ (b : List Char) (p : Pos),
      pos_to_char? b p = some (pos_to_char b p)) ∧
    (∀ (b : List Char) (c : Nat),
      char_to_pos? b c = some (char_to_pos b c)) ∧
    (∀ (b : List Char) (p : Pos), move_left? b p = some (move_left b p)) ∧
    (∀ (b : List Char) (p : Pos), move_right? b p = some (move_right b p)) ∧
    (∀ (b : List Char) (p : Pos), move_up? b p = some (move_up b p)) ∧
    (∀ (b : List Char) (p : Pos), move_down? b p = some (move_down b p)) ∧
    (∀ (b : List Char) (p : Pos), char_at? b p = some (char_at b p)) ∧
    (∀ (b : List Char) (p : Pos),
      char_before? b p = some (char_before b p)) ∧
    (∀ (b : List Char) (p : Pos) (t : List Char),
      insert? b p t = some (insert b p t)) ∧
    (∀ (b : List Char) (a c : Pos),
      delete_range? b a c = some (delete_range b a c)) ∧
    (∀ (b : List Char) (sel : Selection),
      delete_selection? b sel = some (delete_selection b sel)) ∧
    (∀ (b : List Char) (sel : Selection),
      backspace? b sel = some (backspace b sel)) ∧
    (∀ (b : List Char) (sel : Selection),
      delete? b sel = some (delete b sel)) ∧
    (∀ (b : List Char) (sel : Selection),
      insert_newline? b sel = some (insert_newline b sel)) ∧
    (∀ (b : List Char) (ed : Edit),
      apply_edit? b ed = some (apply_edit b ed)) ∧
    (∀ (b : List Char) (sel : Selection) (t : List Char),
      replace_selection? b sel t = some (replace_selection b sel t)) ∧
    (∀ (b : List Char) (p : Pos),
      word_start_before? b p = some (word_start_before b p)) ∧
    (∀ (b : List Char) (p : Pos),
      word_end_after? b p = some (word_end_after b p)) ∧
    (∀ (b : List Char) (line : Nat),
      line_len_chars? b line = some (line_len_chars b line)) ∧
    (∀ (b : List Char) (line : Nat),
      line_string? b line = some (line_string b line)) ∧
    (∀ (b : List Char) (line : Nat),
      line_char_range? b line = some (line_char_range b line)) ∧
    (∀ (b : List Char) (line : Nat),
      line_to_char? b line = some (line_to_char b line)) ∧
    (∀ (b : List Char) (c : Nat),
      char_to_line? b c = some (char_to_line b c)) ∧
    (∀ (b : List Char) (s e : Nat),
      slice_chars? b s e = some (slice_chars b s e)) ∧
    (∀ (b : List Char) (sel : Selection),
      slice_selection? b sel = some (slice_selection b sel)) ∧
    (∀ (b : List Char) (a c : Pos),
      slice_pos_range? b a c = some (slice_pos_range b a c)) :=
  ⟨clamp_pos?_eq, pos_to_char?_eq, char_to_pos?_eq, move_left?_eq,
   move_right?_eq, move_up?_eq, move_down?_eq, char_at?_eq, char_before?_eq,
   insert?_eq, delete_range?_eq, delete_selection?_eq, backspace?_eq,
   delete?_eq, insert_newline?_eq, apply_edit?_eq, replace_selection?_eq,
   word_start_before?_eq, word_end_after?_eq, line_len_chars?_eq,
   line_string?_eq, line_char_range?_eq, line_to_char?_eq, char_to_line?_eq,
   slice_chars?_eq, slice_selection?_eq, slice_pos_range?_eq⟩

/-- Claim C2: offset round-trip — for every buffer and every character
offset `c` with `c ≤ total_chars`, `pos_to_char (char_to_pos c) = c`; in
particular an offset landing on a trailing newline converts to the
end-of-line position and back to the same offset. -/
theorem c2_offset_roundtrip (b : List Char) (c : Nat) (h : c ≤ len_chars b) :
    pos_to_char b (char_to_pos b c) = c :=
  pos_to_char_char_to_pos b c h

/-- Witness for C2 at the buffer `"a\nbb\n"` and offset 1, which lands
exactly on the first line's trailing newline. -/
theorem c2_offset_roundtrip_witness :
    1 ≤ len_chars (fromStr "a\nbb\n") ∧
    pos_to_char (fromStr "a\nbb\n") (char_to_pos (fromStr "a\nbb\n") 1) = 1 :=
  ⟨by decide, c2_offset_roundtrip (fromStr "a\nbb\n") 1 (by decide)⟩

/-- Counterexample to Claim C3 as stated: in the one-line buffer `"a"`, the
position `(1, 0)` satisfies the claimed precondition
`col ≤ line_len_chars line` (the line index is clamped inside
`line_len_chars`), yet it does not round-trip: the conversion lands on
`(0, 0)`. -/
theorem c3_position_roundtrip_counterexample :
    (⟨1, 0⟩ : Pos).col ≤ line_len_chars (fromStr "a") (⟨1, 0⟩ : Pos).line ∧
    char_to_pos (fromStr "a") (pos_to_char (fromStr "a") ⟨1, 0⟩) ≠ ⟨1, 0⟩ := by
  decide

/-- Claim C3, amended: position round-trip holds for positions whose line
index is in range (`line < total_lines`) and whose column satisfies
`col ≤ line_len_chars line`. -/
theorem c3_position_roundtrip (b : List Char) (p : Pos)
    (h1 : p.line < len_lines b) (h2 : p.col ≤ line_len_chars b p.line) :
    char_to_pos b (pos_to_char b p) = p :=
  char_to_pos_pos_to_char b p
    (by simp only [len_lines] at h1; omega) h2

/-- Witness for amended C3 at the buffer `"a\nbb"`, position `(1, 2)`. -/
theorem c3_position_roundtrip_witness :
    ((⟨1, 2⟩ : Pos).line < len_lines (fromStr "a\nbb") ∧
     (⟨1, 2⟩ : Pos).col ≤ line_len_chars (fromStr "a\nbb") (⟨1, 2⟩ : Pos).line) ∧
    char_to_pos (fromStr "a\nbb") (pos_to_char (fromStr "a\nbb") ⟨1, 2⟩)
      = ⟨1, 2⟩ :=
  ⟨⟨by decide, by decide⟩,
   c3_position_roundtrip (fromStr "a\nbb") ⟨1, 2⟩ (by decide) (by decide)⟩

/-- Claim C8: every buffer state reachable through the constructors and the
editing operations has at least one line, including the empty buffer. -/
theorem c8_line_count_invariant (b : List Char) (_ : Reachable b) :
    1 ≤ len_lines b := by
  simp only [len_lines]
  omega

/-- Witness for C8 at the empty buffer produced by the `new` constructor. -/
theorem c8_line_count_invariant_witness :
    1 ≤ len_lines newBuffer :=
  c8_line_count_invariant newBuffer Reachable.new

/-- Claim C9: on the buffer `"abc  def_12!"`,
`word_start_before (0,6) = (0,5)` and `word_end_after (0,5) = (0,11)`; the
word-character predicate holds exactly on ASCII alphanumerics and
underscore, so each motion skips the delimiter run and then the word run. -/
theorem c9_word_motion :
    word_start_before (fromStr "abc  def_12!") ⟨0, 6⟩ = ⟨0, 5⟩ ∧
    word_end_after (fromStr "abc  def_12!") ⟨0, 5⟩ = ⟨0, 11⟩ ∧
    is_word_char 'd' = true ∧ is_word_char 'A' = true ∧
    is_word_char '5' = true ∧ is_word_char '_' = true ∧
    is_word_char ' ' = false ∧ is_word_char '!' = false ∧
    is_word_char '\n' = false := by
  decide

/-- Claim C10: slicing is order-independent — `slice_chars` and
`slice_pos_range` give the same result with their two endpoints swapped,
for all (also out-of-range) inputs. -/
theorem c10_slice_order_indep (b : List Char) (s e : Nat) (p q : Pos) :
    slice_chars b s e = slice_chars b e s ∧
    slice_pos_range b p q = slice_pos_range b q p :=
  ⟨slice_chars_comm b s e,
   by simp only [slice_pos_range]; exact slice_chars_comm b _ _⟩

/-- Claim C4: `apply_edit` is order-independent in its range, and in full:
it clamps both endpoints to `[0, total_chars]`, orders them, removes the
ordered range, inserts the text at the range start, and returns the
position of the end of the inserted text (which is the removal start when
nothing is inserted). -/
theorem c4_apply_edit_order_indep (b : List Char) (a c : Nat)
    (ins : List Char) :
    apply_edit b ⟨a, c, ins⟩ = apply_edit b ⟨c, a, ins⟩ ∧
    apply_edit b ⟨a, c, ins⟩ =
      (b.take (min (min a (len_chars b)) (min c (len_chars b))) ++ ins ++
         b.drop (max (min a (len_chars b)) (min c (len_chars b))),
       char_to_pos
         (b.take (min (min a (len_chars b)) (min c (len_chars b))) ++ ins ++
           b.drop (max (min a (len_chars b)) (min c (len_chars b))))
         (min (min a (len_chars b)) (min c (len_chars b)) + ins.length)) := by
  constructor
  · rw [apply_edit_eqn, apply_edit_eqn]
    dsimp only
    rw [Nat.min_comm (min a (len_chars b)) (min c (len_chars b)),
        Nat.max_comm (min a (len_chars b)) (min c (len_chars b))]
  · have h := apply_edit_eqn b ⟨a, c, ins⟩
    dsimp only at h
    exact h

/-- Counterexample to Claim C5 as stated: for the buffer `"a"` and the
out-of-range position `(0, 5)`, inserting `"xyz"` and then deleting the
range from `(0, 5)` to the returned position does not restore the original
content — in the new buffer `(0, 5)` clamps to the end of the inserted
text, so nothing is deleted. -/
theorem c5_insert_delete_inverse_counterexample :
    (delete_range (insert (fromStr "a") ⟨0, 5⟩ (fromStr "xyz")).1 ⟨0, 5⟩
       (insert (fromStr "a") ⟨0, 5⟩ (fromStr "xyz")).2).1 ≠ fromStr "a" := by
  decide

/-- Claim C5, amended: for every buffer, every text and every in-range
(clamped) position `p`, inserting at `p` and then deleting from `p` to the
returned end-of-insertion position restores the original content and
returns the cursor to `p`. -/
theorem c5_insert_delete_inverse (b : List Char) (p : Pos) (t : List Char)
    (h : clamp_pos b p = p) :
    delete_range (insert b p t).1 p (insert b p t).2 = (b, p) := by
  have hatle : pos_to_char b p ≤ b.length := pos_to_char_le b p
  simp only [insert]
  set at_ := pos_to_char b p with hat
  set b1 := ropeInsert b at_ t with hb1
  have hlb1 : b1.length = b.length + t.length := by
    rw [hb1]
    unfold ropeInsert
    rw [List.length_append, List.length_append, List.length_take,
      List.length_drop]
    omega
  have htake : b1.take at_ = b.take at_ := by
    rw [hb1]
    unfold ropeInsert
    rw [List.append_assoc]
    exact List.take_left' (by rw [List.length_take]; omega)
  have hp : char_to_pos b1 at_ = p :=
    char_to_pos_agree b b1 p h htake (by omega)
  have hvb1 : clamp_pos b1 p = p := by
    rw [← hp]
    exact char_to_pos_valid b1 at_
  have hptc1 : pos_to_char b1 p = at_ := by
    conv_lhs => rw [← hp]
    exact pos_to_char_char_to_pos b1 at_ (by simp only [len_chars]; omega)
  have hp1v : clamp_pos b1 (char_to_pos b1 (at_ + t.length))
      = char_to_pos b1 (at_ + t.length) := char_to_pos_valid b1 _
  have hptc2 : pos_to_char b1 (char_to_pos b1 (at_ + t.length))
      = at_ + t.length :=
    pos_to_char_char_to_pos b1 _ (by simp only [len_chars]; omega)
  have hle12 : posLe p (char_to_pos b1 (at_ + t.length)) = true := by
    rcases posLe_total p (char_to_pos b1 (at_ + t.length)) with hgood | hback
    · exact hgood
    · have hmono := pos_to_char_mono b1 hp1v hvb1 hback
      rw [hptc1, hptc2] at hmono
      have ht0 : t = [] := List.length_eq_zero.mp (by omega)
      subst ht0
      simp only [List.length_nil, Nat.add_zero]
      rw [hp]
      exact posLe_refl p
  have hmin : min_pos b1 p (char_to_pos b1 (at_ + t.length)) = p := by
    simp only [min_pos, hvb1, hp1v]
    rw [if_pos hle12]
  have hmax : max_pos b1 p (char_to_pos b1 (at_ + t.length))
      = char_to_pos b1 (at_ + t.length) := by
    simp only [max_pos, hvb1, hp1v]
    by_cases h2 : posLe (char_to_pos b1 (at_ + t.length)) p
    · rw [if_pos h2]
      exact posLe_antisymm hle12 h2
    · rw [if_neg h2]
  rw [delete_range_eq, hmin, hmax, hptc1, hptc2]
  have hremove : ropeRemove b1 at_ (at_ + t.length) = b := by
    unfold ropeRemove
    rw [htake]
    have hdrop : b1.drop (at_ + t.length) = b.drop at_ := by
      rw [hb1]
      unfold ropeInsert
      exact List.drop_left'
        (by rw [List.length_append, List.length_take]; omega)
    rw [hdrop, List.take_append_drop]
  rw [hremove]

/-- Witness for amended C5 at the buffer `"ab"`, position `(0, 1)`, and a
text containing a newline. -/
theorem c5_insert_delete_inverse_witness :
    clamp_pos (fromStr "ab") ⟨0, 1⟩ = ⟨0, 1⟩ ∧
    delete_range (insert (fromStr "ab") ⟨0, 1⟩ (fromStr "x\ny")).1 ⟨0, 1⟩
      (insert (fromStr "ab") ⟨0, 1⟩ (fromStr "x\ny")).2
      = (fromStr "ab", ⟨0, 1⟩) :=
  ⟨by decide,
   c5_insert_delete_inverse (fromStr "ab") ⟨0, 1⟩ (fromStr "x\ny")
     (by decide)⟩

/-- Claim C6: `delete_selection` on an empty selection returns the clamped
cursor and `false` without touching the content; on a non-empty selection
it removes exactly the ordered clamped range and returns the range start as
a position, with `true`. -/
theorem c6_delete_selection (b : List Char) (sel : Selection) :
    delete_selection b sel =
      if sel.anchor = sel.cursor then (b, clamp_pos b sel.cursor, false)
      else
        (ropeRemove b (pos_to_char b (min_pos b sel.ordered.1 sel.ordered.2))
           (pos_to_char b (max_pos b sel.ordered.1 sel.ordered.2)),
         min_pos b sel.ordered.1 sel.ordered.2, true) := by
  by_cases h : sel.anchor = sel.cursor
  · rw [if_pos h]
    have he : sel.isEmpty = true := by simp [Selection.isEmpty, h]
    simp only [delete_selection, he, if_true]
  · rw [if_neg h]
    have he : sel.isEmpty = false := by simp [Selection.isEmpty, h]
    simp only [delete_selection, he, Bool.false_eq_true, if_false]
    rcases hso : sel.ordered with ⟨sa, sb⟩
    dsimp only
    rw [delete_range_eq]

/-- Claim C7: `backspace` deletes a non-empty selection and returns an
empty selection at the deletion start; with an empty selection at offset 0
it changes nothing; otherwise it removes exactly the one character before
the cursor and returns an empty selection at that character's position (in
the original buffer). -/
theorem c7_backspace (b : List Char) (sel : Selection) :
    backspace b sel =
      if sel.anchor = sel.cursor then
        if pos_to_char b (clamp_pos b sel.cursor) = 0 then
          (b, Selection.empty (clamp_pos b sel.cursor))
        else
          (ropeRemove b (pos_to_char b (clamp_pos b sel.cursor) - 1)
             (pos_to_char b (clamp_pos b sel.cursor)),
           Selection.empty
             (char_to_pos b (pos_to_char b (clamp_pos b sel.cursor) - 1)))
      else
        (ropeRemove b (pos_to_char b (min_pos b sel.ordered.1 sel.ordered.2))
           (pos_to_char b (max_pos b sel.ordered.1 sel.ordered.2)),
         Selection.empty (min_pos b sel.ordered.1 sel.ordered.2)) := by
  by_cases h : sel.anchor = sel.cursor
  · rw [if_pos h]
    have he : sel.isEmpty = true := by simp [Selection.isEmpty, h]
    simp only [backspace, he, Bool.not_true, Bool.false_eq_true, if_false]
    by_cases h0 : pos_to_char b (clamp_pos b sel.cursor) = 0
    · rw [if_pos h0, if_pos h0]
    · rw [if_neg h0, if_neg h0]
      rw [char_to_pos_remove_agree b (by omega) (pos_to_char_le b _)]
  · rw [if_neg h]
    have he : sel.isEmpty = false := by simp [Selection.isEmpty, h]
    simp only [backspace, he, Bool.not_false, if_true, delete_selection,
      Bool.false_eq_true, if_false]
    rcases hso : sel.ordered with ⟨sa, sb⟩
    dsimp only
    rw [delete_range_eq]

end Redox
